import Mathlib

/-!
# Multithreaded merge sort (`Main.cpp`)

A shallow embedding of `merge`, of the recursive `parallelMergeSort` and of the
wrapper `parallelMergeSort(arr, n, maxThreads)`.

* Arrays are lists; an index is an `Int` as in the source, and a read or write
  outside the array (undefined behaviour in C++) is `none`.
* The elements are compared through `key : α → Int`; the source sorts `int`s,
  which is `α = Int`, `key = id`.  The instance `α = Int × Nat`, `key = Prod.fst`
  (an element with its original position) is used to observe stability.
* The `while` loops and the recursion carry a bound on the number of iterations
  (`fuel`); the callers pass a bound that is never reached (`merge_append`,
  `parallelMergeSort_eq`).
* Indices and the depth are integers; `Orchestrator.body` computes on them
  without overflow, which is the source on ranges of indices and on the depths
  the wrapper passes.  `Orchestrator32.body` is the same function with the
  wrap-around of 32-bit `int`s, for the calls at the limits of `int`.
* The recursive function is embedded as the program (`Prog`) it runs on the
  shared state, the array and the counter `*activeThreads`.  The two critical
  sections guarded by the mutex and the calls of `merge` are the atomic steps
  (threads that run at the same time call `merge` on disjoint windows, see
  `Within`); `std::async` followed by `wait` is a fork/join node.  `next` lists
  the steps a configuration can take, one for each thread that can move, and a
  schedule (`exec`) picks one of them at every step: the schedules are the
  interleavings of the threads.
-/

namespace ParallelMergeSort

variable {α : Type}

/-! ## Array access -/

/-- The read `arr[i]`; `none` outside the array. -/
def readAt (arr : List α) (i : Int) : Option α :=
  if 0 ≤ i then arr[i.toNat]? else none

/-- The write `arr[i] = v`; `none` outside the array. -/
def writeAt (arr : List α) (i : Int) (v : α) : Option (List α) :=
  if 0 ≤ i ∧ i < arr.length then some (arr.set i.toNat v) else none

/-! ## `merge` (lines 15-63) -/

/-- The copy loops of lines 24-28: `for (i = ...; ...; i++) buf[i] = arr[base + i]`
with `cnt` iterations left; the result is the filled buffer from `i` on. -/
def copyRun (arr : List α) (base : Int) : Nat → Int → Option (List α)
  | 0, _ => some []
  | cnt + 1, i => do
    let v ← readAt arr (base + i)
    let rest ← copyRun arr base cnt (i + 1)
    pure (v :: rest)

/-- The loop of lines 33-44, on the state `(arr, i, j, k)`. -/
def mergeLoop (key : α → Int) (left right : List α) (nl nr : Int) :
    Nat → List α → Int → Int → Int → Option (List α × Int × Int × Int)
  | 0, arr, i, j, k => if i < nl ∧ j < nr then none else some (arr, i, j, k)
  | fuel + 1, arr, i, j, k =>
    if i < nl ∧ j < nr then do
      let x ← readAt left i
      let y ← readAt right j
      if key x ≤ key y then do
        let arr1 ← writeAt arr k x
        mergeLoop key left right nl nr fuel arr1 (i + 1) j (k + 1)
      else do
        let arr1 ← writeAt arr k y
        mergeLoop key left right nl nr fuel arr1 i (j + 1) (k + 1)
    else some (arr, i, j, k)

/-- The loops of lines 47-51 and 54-58: `while (i < n) { arr[k] = buf[i]; i++; k++; }`,
on the state `(arr, i, k)`. -/
def copyBack (buf : List α) (n : Int) : Nat → List α → Int → Int → Option (List α × Int × Int)
  | 0, arr, i, k => if i < n then none else some (arr, i, k)
  | fuel + 1, arr, i, k =>
    if i < n then do
      let v ← readAt buf i
      let arr1 ← writeAt arr k v
      copyBack buf n fuel arr1 (i + 1) (k + 1)
    else some (arr, i, k)

/-- The function `merge(arr, l, m, r)`.  A negative buffer size is `none`. -/
def merge (key : α → Int) (arr : List α) (l m r : Int) : Option (List α) :=
  let nl := m - l + 1
  let nr := r - m
  if nl < 0 ∨ nr < 0 then none else do
    let left ← copyRun arr l nl.toNat 0
    let right ← copyRun arr (m + 1) nr.toNat 0
    let (arr1, i, j, k) ← mergeLoop key left right nl nr (nl + nr).toNat arr 0 0 l
    let (arr2, _, k2) ← copyBack left nl nl.toNat arr1 i k
    let (arr3, _, _) ← copyBack right nr nr.toNat arr2 j k2
    pure arr3

/-- The merge of section 4.1 of the specification, in its words: compare the
fronts of the two buffers, write the left front when it is not larger (ties go
to the left), the right front otherwise, and copy what remains of the other
buffer once one is exhausted. -/
def specMerge (key : α → Int) : List α → List α → List α
  | [], ys => ys
  | x :: xs, [] => x :: xs
  | x :: xs, y :: ys =>
    if key x ≤ key y then x :: specMerge key xs (y :: ys)
    else y :: specMerge key (x :: xs) ys
termination_by xs ys => xs.length + ys.length

/-- The window `arr[l..r]`, both ends included. -/
def window (arr : List α) (l r : Int) : List α :=
  (arr.drop l.toNat).take (r - l + 1).toNat

/-! ## The recursive `parallelMergeSort` (lines 75-124) -/

/-- The programs run by the recursive function. -/
inductive Prog where
  /-- The call has returned. -/
  | done : Prog
  /-- Lines 90-95, one critical section: when `activeThreads < maxThreads` the
  counter is incremented and the run goes on with `granted`, otherwise with
  `denied`. -/
  | admission (maxThreads : Int) (granted denied : Prog) : Prog
  /-- Lines 105-107, one critical section: the counter is decremented. -/
  | release : Prog
  /-- The call `merge(arr, l, m, r)`. -/
  | mergeCall (l m r : Int) : Prog
  /-- One statement after the other. -/
  | seq (first second : Prog) : Prog
  /-- Lines 100-115: `worker` runs in the thread started by `std::async`,
  `current` in the calling thread, and `wait` joins them. -/
  | async (worker current : Prog) : Prog
  deriving DecidableEq

namespace Orchestrator

/-- The body of the recursive function (lines 80-123), with a bound on the depth
of the recursion.  Past the test `l ≥ r` the difference `r - l` is positive, so
the division is the division of C++.  The arithmetic is that of the integers:
this is the source where no `int` overflows, which is the case for ranges of
indices `0 ≤ l`, `r ≤ 2^31 - 1` and depths from `-2^31 + 31` on
(`body32_eq_body`); `Orchestrator32.body` has the 32-bit arithmetic. -/
def body (maxThreads : Int) : Nat → Int → Int → Int → Prog
  | 0, _, _, _ => Prog.done
  | fuel + 1, l, r, depth =>
    if l ≥ r then Prog.done
    else
      let m := l + (r - l) / 2
      let left := body maxThreads fuel l m (depth - 1)
      let right := body maxThreads fuel (m + 1) r (depth - 1)
      let sequential := Prog.seq left right
      Prog.seq
        (if depth > 0 then
          Prog.admission maxThreads (Prog.async (Prog.seq left Prog.release) right) sequential
        else sequential)
        (Prog.mergeCall l m r)

/-- The recursive `parallelMergeSort(arr, l, r, depth, maxThreads, activeThreads, mtx)`:
the program of the call; the array and the counter are the state it runs on. -/
def parallelMergeSort (l r depth maxThreads : Int) : Prog :=
  body maxThreads ((r - l).toNat + 1) l r depth

end Orchestrator

/-! ## Running a program -/

/-- A configuration: what is left to run, the array, and `*activeThreads`. -/
structure Config (α : Type) where
  prog : Prog
  arr : List α
  activeThreads : Int

/-- The steps a program can take from the state `(arr, active)`: one for each
thread that can move.  A call of `merge` that leaves the array has none. -/
def next (key : α → Int) : Prog → List α → Int → List (Config α)
  | Prog.done, _, _ => []
  | Prog.admission maxThreads granted denied, arr, active =>
    if active < maxThreads then [⟨granted, arr, active + 1⟩] else [⟨denied, arr, active⟩]
  | Prog.release, arr, active => [⟨Prog.done, arr, active - 1⟩]
  | Prog.mergeCall l m r, arr, active =>
    match merge key arr l m r with
    | some arr1 => [⟨Prog.done, arr1, active⟩]
    | none => []
  | Prog.seq a b, arr, active =>
    if a = Prog.done then [⟨b, arr, active⟩]
    else (next key a arr active).map fun c => ⟨Prog.seq c.prog b, c.arr, c.activeThreads⟩
  | Prog.async a b, arr, active =>
    if a = Prog.done ∧ b = Prog.done then [⟨Prog.done, arr, active⟩]
    else
      ((next key a arr active).map fun c => ⟨Prog.async c.prog b, c.arr, c.activeThreads⟩) ++
      ((next key b arr active).map fun c => ⟨Prog.async a c.prog, c.arr, c.activeThreads⟩)

/-- One step of a run: the scheduler's `choice` selects among the possible
steps; a configuration without a step stays as it is. -/
def pick (key : α → Int) (c : Config α) (choice : Nat) : Config α :=
  let cs := next key c.prog c.arr c.activeThreads
  cs.getD (choice % cs.length) c

/-- The configuration reached under the schedule `sched`. -/
def exec (key : α → Int) (sched : List Nat) (c : Config α) : Config α :=
  sched.foldl (pick key) c

/-- The longest run of a program, in steps. -/
def cost : Prog → Nat
  | Prog.done => 0
  | Prog.admission _ granted denied => 1 + max (cost granted) (cost denied)
  | Prog.release => 1
  | Prog.mergeCall _ _ _ => 1
  | Prog.seq a b => cost a + 1 + cost b
  | Prog.async a b => cost a + cost b + 1

/-! ## The wrapper `parallelMergeSort(arr, n, maxThreads)` (lines 132-145) -/

/-- The integer part of the binary logarithm, by halving. -/
def floorLog2 : Nat → Nat → Nat
  | 0, _ => 0
  | fuel + 1, x => if 2 ≤ x then floorLog2 fuel (x / 2) + 1 else 0

/-- The expression `static_cast<int>(std::log2(x))` for `x ≥ 1`: for an `int` the
double `log2` is exact enough for the cast to give the floor.  (For `x ≤ 0` the
cast is undefined in the source; the value here is 0.) -/
def log2 (x : Int) : Int := (floorLog2 x.toNat x.toNat : Nat)

namespace Driver

/-- The wrapper: the configuration it starts (`activeThreads = 0`), already
finished when `n ≤ 1`. -/
def parallelMergeSort (arr : List α) (n maxThreads : Int) : Config α :=
  if n ≤ 1 then ⟨Prog.done, arr, 0⟩
  else
    let maxDepth := min (log2 maxThreads + 1) (log2 n)
    ⟨Orchestrator.parallelMergeSort 0 (n - 1) maxDepth maxThreads, arr, 0⟩

end Driver


/-! ## What a program does to the array and to the counter -/

/-- The array a program leaves when its threads run one after the other, the
worker first. -/
def den (key : α → Int) : Prog → List α → Option (List α)
  | Prog.done, arr => some arr
  | Prog.admission _ _ denied, arr => den key denied arr
  | Prog.release, arr => some arr
  | Prog.mergeCall l m r, arr => merge key arr l m r
  | Prog.seq a b, arr => (den key a arr).bind (den key b)
  | Prog.async a b, arr => (den key a arr).bind (den key b)

/-- The releases a program performs on a run along the denied branches: the
admissions that were granted and are not released yet. -/
def owed : Prog → Nat
  | Prog.done => 0
  | Prog.admission _ _ denied => owed denied
  | Prog.release => 1
  | Prog.mergeCall _ _ _ => 0
  | Prog.seq a b => owed a + owed b
  | Prog.async a b => owed a + owed b

/-- Every admission check of the program compares with `maxThreads`, and its
granted branch performs one release more than its denied branch. -/
def Balanced (maxThreads : Int) : Prog → Prop
  | Prog.done => True
  | Prog.admission cap granted denied =>
    cap = maxThreads ∧ Balanced maxThreads granted ∧ Balanced maxThreads denied ∧
      owed granted = owed denied + 1
  | Prog.release => True
  | Prog.mergeCall _ _ _ => True
  | Prog.seq a b => Balanced maxThreads a ∧ Balanced maxThreads b
  | Prog.async a b => Balanced maxThreads a ∧ Balanced maxThreads b

/-- The largest number of admission checks a run of the program performs. -/
def admissionChecks : Prog → Nat
  | Prog.done => 0
  | Prog.admission _ granted denied => 1 + max (admissionChecks granted) (admissionChecks denied)
  | Prog.release => 0
  | Prog.mergeCall _ _ _ => 0
  | Prog.seq a b => admissionChecks a + admissionChecks b
  | Prog.async a b => admissionChecks a + admissionChecks b

/-- The program works inside the indices `lo ≤ i < hi`: its calls of `merge` have
`lo ≤ l ≤ m < r < hi`, the two threads of a fork work on adjacent windows, and
the two branches of an admission check leave the same array. -/
def Within (key : α → Int) : Nat → Nat → Prog → Prop
  | _, _, Prog.done => True
  | lo, hi, Prog.admission _ granted denied =>
    Within key lo hi granted ∧ Within key lo hi denied ∧
      ∀ arr : List α, den key granted arr = den key denied arr
  | _, _, Prog.release => True
  | lo, hi, Prog.mergeCall l m r => (lo : Int) ≤ l ∧ l ≤ m ∧ m < r ∧ r < (hi : Int)
  | lo, hi, Prog.seq a b => Within key lo hi a ∧ Within key lo hi b
  | lo, hi, Prog.async a b =>
    ∃ mid : Nat, lo ≤ mid ∧ mid ≤ hi ∧ Within key lo mid a ∧ Within key mid hi b

/-- The function `f` on arrays rewrites the window `lo ≤ i < hi`, by a function
of the window alone, and leaves the rest of the array as it is. -/
def ActsOn (lo hi : Nat) (f : List α → Option (List α)) : Prop :=
  ∃ g : List α → List α, (∀ mid, (g mid).length = mid.length) ∧
    ∀ pre mid post : List α, pre.length = lo → pre.length + mid.length = hi →
      f (pre ++ mid ++ post) = some (pre ++ g mid ++ post)

/-- Ascending by key. -/
def SortedBy (key : α → Int) (xs : List α) : Prop :=
  xs.Pairwise fun a b => key a ≤ key b

/-- What the recursive function does to the window it is called on, as a
function on lists: the first `(len - 1) / 2 + 1` elements are `arr[l..m]`. -/
def sortedRun (key : α → Int) : Nat → List α → List α
  | 0, xs => xs
  | fuel + 1, xs =>
    if xs.length ≤ 1 then xs
    else
      let h := (xs.length - 1) / 2 + 1
      specMerge key (sortedRun key fuel (xs.take h)) (sortedRun key fuel (xs.drop h))

/-- Every element of an `int` array together with its position in the array. -/
def tagged (arr : List Int) : List (Int × Nat) :=
  arr.zip (List.range arr.length)

/-- Plain sequential top-down merge sort of `arr[l..r]`: the recursive function
with the parallel branch never taken, so without depth, counter and threads. -/
def sequentialSort (key : α → Int) : Nat → List α → Int → Int → Option (List α)
  | 0, arr, _, _ => some arr
  | fuel + 1, arr, l, r =>
    if l ≥ r then some arr
    else
      let m := l + (r - l) / 2
      do
        let arr1 ← sequentialSort key fuel arr l m
        let arr2 ← sequentialSort key fuel arr1 (m + 1) r
        merge key arr2 l m r

/-- Plain sequential merge sort with the bound on the recursion the recursive
function has. -/
def sequentialMergeSort (key : α → Int) (arr : List α) (l r : Int) : Option (List α) :=
  sequentialSort key ((r - l).toNat + 1) arr l r

/-- The steps of `next`, in the same order, each with the mark of an admission
check: the critical section of lines 90-95, which locks the mutex and compares
`*activeThreads` with `maxThreads`. -/
def nextLabelled (key : α → Int) : Prog → List α → Int → List (Bool × Config α)
  | Prog.done, _, _ => []
  | Prog.admission maxThreads granted denied, arr, active =>
    if active < maxThreads then [(true, ⟨granted, arr, active + 1⟩)]
    else [(true, ⟨denied, arr, active⟩)]
  | Prog.release, arr, active => [(false, ⟨Prog.done, arr, active - 1⟩)]
  | Prog.mergeCall l m r, arr, active =>
    match merge key arr l m r with
    | some arr1 => [(false, ⟨Prog.done, arr1, active⟩)]
    | none => []
  | Prog.seq a b, arr, active =>
    if a = Prog.done then [(false, ⟨b, arr, active⟩)]
    else (nextLabelled key a arr active).map fun x =>
      (x.1, ⟨Prog.seq x.2.prog b, x.2.arr, x.2.activeThreads⟩)
  | Prog.async a b, arr, active =>
    if a = Prog.done ∧ b = Prog.done then [(false, ⟨Prog.done, arr, active⟩)]
    else
      ((nextLabelled key a arr active).map fun x =>
        (x.1, ⟨Prog.async x.2.prog b, x.2.arr, x.2.activeThreads⟩)) ++
      ((nextLabelled key b arr active).map fun x =>
        (x.1, ⟨Prog.async a x.2.prog, x.2.arr, x.2.activeThreads⟩))

/-- The step `pick` takes, with its mark. -/
def pickLabelled (key : α → Int) (c : Config α) (choice : Nat) : Bool × Config α :=
  let cs := nextLabelled key c.prog c.arr c.activeThreads
  cs.getD (choice % cs.length) (false, c)

/-- The number of admission checks performed on the run under `sched`. -/
def checksPerformed (key : α → Int) : List Nat → Config α → Nat
  | [], _ => 0
  | choice :: rest, c =>
    (if (pickLabelled key c choice).1 then 1 else 0) +
      checksPerformed key rest (pickLabelled key c choice).2

/-- The admission checks and releases that occur in a program, on all its
branches. -/
def budgetOps : Prog → Nat
  | Prog.done => 0
  | Prog.admission _ granted denied => 1 + budgetOps granted + budgetOps denied
  | Prog.release => 1
  | Prog.mergeCall _ _ _ => 0
  | Prog.seq a b => budgetOps a + budgetOps b
  | Prog.async a b => budgetOps a + budgetOps b

/-- The midpoint of line 85, `int m = l + (r - l) / 2`, on the integers: the value
of the source for `0 ≤ l ≤ r ≤ 2^31 - 1` (`midpoint32_eq`); `midpoint32` has the
32-bit arithmetic. -/
def midpoint (l r : Int) : Int :=
  l + (r - l) / 2

/-- The value an `int` computation has when it wraps around at 32 bits (two's
complement). -/
def wrap32 (x : Int) : Int :=
  (x + 2147483648) % 4294967296 - 2147483648

/-- The division by 2 of C++, which rounds toward zero. -/
def half (x : Int) : Int :=
  if 0 ≤ x then x / 2 else -((-x) / 2)

/-- The midpoint of line 85 computed on 32-bit `int`s: `l + (r - l) / 2`. -/
def midpoint32 (l r : Int) : Int :=
  wrap32 (l + half (wrap32 (r - l)))

/-- The alternative `(l + r) / 2` computed on 32-bit `int`s. -/
def naiveMidpoint32 (l r : Int) : Int :=
  half (wrap32 (l + r))

namespace Orchestrator32

/-- The body of the recursive function (lines 80-123) on 32-bit `int`s: `l`, `r`
and `depth` are `int`s, the midpoint of line 85, `m + 1` and `depth - 1` are
computed with wrap-around. -/
def body (maxThreads : Int) : Nat → Int → Int → Int → Prog
  | 0, _, _, _ => Prog.done
  | fuel + 1, l, r, depth =>
    if l ≥ r then Prog.done
    else
      let m := midpoint32 l r
      let left := body maxThreads fuel l m (wrap32 (depth - 1))
      let right := body maxThreads fuel (wrap32 (m + 1)) r (wrap32 (depth - 1))
      let sequential := Prog.seq left right
      Prog.seq
        (if depth > 0 then
          Prog.admission maxThreads (Prog.async (Prog.seq left Prog.release) right) sequential
        else sequential)
        (Prog.mergeCall l m r)

/-- The recursive `parallelMergeSort` on 32-bit `int`s, with the bound `r - l + 1`
on the depth of the recursion, which is not reached on ranges of indices
`0 ≤ l`, `r ≤ 2^31 - 1` (`body32_fuel`). -/
def parallelMergeSort (l r depth maxThreads : Int) : Prog :=
  body maxThreads ((r - l).toNat + 1) l r depth

end Orchestrator32

/-- The calls of `merge` that occur in a program, on all its branches. -/
def mergeCalls : Prog → List (Int × Int × Int)
  | Prog.done => []
  | Prog.admission _ granted denied => mergeCalls granted ++ mergeCalls denied
  | Prog.release => []
  | Prog.mergeCall l m r => [(l, m, r)]
  | Prog.seq a b => mergeCalls a ++ mergeCalls b
  | Prog.async a b => mergeCalls a ++ mergeCalls b

/-- Inside `merge(arr, l, m, r)` no read or write leaves the array or a buffer
(each would make the loop it is in return `none`): the two copies fill the
buffers with `arr[l..m]` and `arr[m+1..r]`; the loop of lines 33-44 ends with
`0 ≤ i ≤ nl`, `0 ≤ j ≤ nr`, one buffer exhausted and `k = l + i + j`; the loop of
lines 47-51 ends with `i = nl`; the loop of lines 54-58 ends with `j = nr` and
`k = r + 1`; and `merge` returns the array they leave. -/
def MergeInBounds (key : α → Int) (arr : List α) (l m r : Int) : Prop :=
  copyRun arr l (m - l + 1).toNat 0 = some (window arr l m) ∧
  copyRun arr (m + 1) (r - m).toNat 0 = some (window arr (m + 1) r) ∧
  ∃ (arr1 arr2 arr3 : List α) (i j : Int),
    (0 ≤ i ∧ i ≤ m - l + 1) ∧ (0 ≤ j ∧ j ≤ r - m) ∧ (i = m - l + 1 ∨ j = r - m) ∧
    mergeLoop key (window arr l m) (window arr (m + 1) r) (m - l + 1) (r - m)
      (m - l + 1 + (r - m)).toNat arr 0 0 l = some (arr1, i, j, l + i + j) ∧
    copyBack (window arr l m) (m - l + 1) (m - l + 1).toNat arr1 i (l + i + j) =
      some (arr2, m - l + 1, m + 1 + j) ∧
    copyBack (window arr (m + 1) r) (r - m) (r - m).toNat arr2 j (m + 1 + j) =
      some (arr3, r - m, r + 1) ∧
    merge key arr l m r = some arr3

/-! ## `merge` in closed form -/

theorem readAt_natCast (arr : List α) (i : Nat) : readAt arr (i : Int) = arr[i]? := by
  simp [readAt]

theorem writeAt_append (pre post : List α) (old v : α) (k : Int) (hk : k = pre.length) :
    writeAt (pre ++ old :: post) k v = some (pre ++ v :: post) := by
  subst hk
  simp [writeAt]

theorem copyRun_eq (arr : List α) (b : Nat) :
    ∀ (cnt i : Nat), b + i + cnt ≤ arr.length →
      copyRun arr (b : Int) cnt (i : Int) = some ((arr.drop (b + i)).take cnt) := by
  intro cnt
  induction cnt with
  | zero => intro i _; simp [copyRun]
  | succ cnt ih =>
    intro i h
    have hlt : b + i < arr.length := by omega
    have h1 : readAt arr ((b : Int) + (i : Int)) = some arr[b + i] := by
      rw [← Int.natCast_add, readAt_natCast]; exact List.getElem?_eq_getElem hlt
    have h2 := ih (i + 1) (by omega)
    rw [Int.natCast_add] at h2
    rw [copyRun, h1, Nat.cast_one] at *
    rw [h2]
    rw [List.drop_eq_getElem_cons hlt, Nat.add_assoc]
    rfl

theorem specMerge_nil_left (key : α → Int) (ys : List α) : specMerge key [] ys = ys := by
  simp [specMerge]

theorem specMerge_nil_right (key : α → Int) (xs : List α) : specMerge key xs [] = xs := by
  cases xs <;> simp [specMerge]

theorem copyBack_eq (buf : List α) :
    ∀ (fuel i : Nat) (pre todo post : List α) (k : Int), i ≤ buf.length →
      todo.length = buf.length - i → buf.length - i ≤ fuel → k = pre.length →
      copyBack buf buf.length fuel (pre ++ todo ++ post) i k =
        some (pre ++ buf.drop i ++ post, (buf.length : Int), k + ((buf.length - i : Nat) : Int)) := by
  intro fuel
  induction fuel with
  | zero =>
    intro i pre todo post k hi ht hf hk
    have : i = buf.length := by omega
    subst this
    have : todo = [] := List.eq_nil_of_length_eq_zero (by omega)
    simp [copyBack, this]
  | succ fuel ih =>
    intro i pre todo post k hi ht hf hk
    by_cases hlt : i < buf.length
    · obtain ⟨t, todo1, rfl⟩ : ∃ t todo1, todo = t :: todo1 := by
        cases todo with
        | nil => simp at ht; omega
        | cons t todo1 => exact ⟨t, todo1, rfl⟩
      have hr : readAt buf (i : Int) = some buf[i] := by
        rw [readAt_natCast]; exact List.getElem?_eq_getElem hlt
      have hw : writeAt (pre ++ t :: todo1 ++ post) k buf[i] = some ((pre ++ [buf[i]]) ++ todo1 ++ post) := by
        have := writeAt_append pre (todo1 ++ post) t buf[i] k hk
        simpa using this
      have := ih (i + 1) (pre ++ [buf[i]]) todo1 post (k + 1) (by omega) (by simp at ht; omega) (by omega)
        (by simp [hk])
      have hc : ((i : Int) < (buf.length : Int)) := by exact_mod_cast hlt
      rw [Nat.cast_add, Nat.cast_one] at this
      rw [copyBack, if_pos hc, hr]
      simp only [Option.bind_eq_bind, Option.some_bind, hw]
      rw [this, List.drop_eq_getElem_cons hlt]
      simp
      omega
    · have : i = buf.length := by omega
      subst this
      have : todo = [] := List.eq_nil_of_length_eq_zero (by omega)
      simp [copyBack, this]

theorem specMerge_cons_cons (key : α → Int) (x y : α) (xs ys : List α) :
    specMerge key (x :: xs) (y :: ys) =
      if key x ≤ key y then x :: specMerge key xs (y :: ys) else y :: specMerge key (x :: xs) ys := by
  rw [specMerge]

theorem mergeLoop_spec (key : α → Int) (left right : List α) :
    ∀ (fuel i j : Nat) (pre todo post : List α) (k : Int), i ≤ left.length → j ≤ right.length →
      todo.length = left.length - i + (right.length - j) → todo.length ≤ fuel → k = pre.length →
      ∃ (i1 j1 : Nat) (out todo1 : List α),
        mergeLoop key left right left.length right.length fuel (pre ++ todo ++ post) i j k =
          some (pre ++ out ++ todo1 ++ post, (i1 : Int), (j1 : Int), k + (out.length : Int)) ∧
        i1 ≤ left.length ∧ j1 ≤ right.length ∧ (i1 = left.length ∨ j1 = right.length) ∧
        todo1.length = left.length - i1 + (right.length - j1) ∧
        out ++ specMerge key (left.drop i1) (right.drop j1) =
          specMerge key (left.drop i) (right.drop j) := by
  intro fuel
  induction fuel with
  | zero =>
    intro i j pre todo post k hi hj ht hf hk
    have hc : ¬ ((i : Int) < (left.length : Int) ∧ (j : Int) < (right.length : Int)) := by omega
    refine ⟨i, j, [], todo, ?_, hi, hj, by omega, ht, by simp⟩
    rw [mergeLoop, if_neg hc]
    simp
  | succ fuel ih =>
    intro i j pre todo post k hi hj ht hf hk
    by_cases hc : (i : Int) < (left.length : Int) ∧ (j : Int) < (right.length : Int)
    · have hil : i < left.length := by omega
      have hjr : j < right.length := by omega
      obtain ⟨t, todo0, rfl⟩ : ∃ t todo0, todo = t :: todo0 := by
        cases todo with
        | nil => simp at ht; omega
        | cons t todo0 => exact ⟨t, todo0, rfl⟩
      have hx : readAt left (i : Int) = some left[i] := by
        rw [readAt_natCast]; exact List.getElem?_eq_getElem hil
      have hy : readAt right (j : Int) = some right[j] := by
        rw [readAt_natCast]; exact List.getElem?_eq_getElem hjr
      have hw : ∀ v, writeAt (pre ++ t :: todo0 ++ post) k v = some ((pre ++ [v]) ++ todo0 ++ post) := by
        intro v
        have := writeAt_append pre (todo0 ++ post) t v k hk
        simpa using this
      have hsm := specMerge_cons_cons key left[i] right[j] (left.drop (i + 1)) (right.drop (j + 1))
      rw [← List.drop_eq_getElem_cons hil, ← List.drop_eq_getElem_cons hjr] at hsm
      simp only [List.length_cons] at ht hf
      rw [mergeLoop, if_pos hc, hx]
      simp only [Option.bind_eq_bind, Option.some_bind, hy]
      by_cases hle : key left[i] ≤ key right[j]
      · obtain ⟨i1, j1, out, todo1, h1, h2, h3, h4, h5, h6⟩ :=
          ih (i + 1) j (pre ++ [left[i]]) todo0 post (k + 1) (by omega) hj (by omega) (by omega)
            (by simp [hk])
        refine ⟨i1, j1, left[i] :: out, todo1, ?_, h2, h3, h4, h5, ?_⟩
        · rw [if_pos hle, hw]
          simp only [Option.some_bind]
          rw [Nat.cast_add, Nat.cast_one] at h1
          rw [h1]
          simp
          omega
        · rw [hsm, if_pos hle, List.cons_append, h6, List.drop_eq_getElem_cons hjr]
      · obtain ⟨i1, j1, out, todo1, h1, h2, h3, h4, h5, h6⟩ :=
          ih i (j + 1) (pre ++ [right[j]]) todo0 post (k + 1) hi (by omega) (by omega) (by omega)
            (by simp [hk])
        refine ⟨i1, j1, right[j] :: out, todo1, ?_, h2, h3, h4, h5, ?_⟩
        · rw [if_neg hle, hw]
          simp only [Option.some_bind]
          rw [Nat.cast_add, Nat.cast_one] at h1
          rw [h1]
          simp
          omega
        · rw [hsm, if_neg hle, List.cons_append, h6, List.drop_eq_getElem_cons hil]
    · refine ⟨i, j, [], todo, ?_, hi, hj, by omega, ht, by simp⟩
      rw [mergeLoop, if_neg hc]
      simp

/-- The effect of `merge` on an array cut at the three indices. -/
theorem merge_append (key : α → Int) (pre left right post : List α) (l m r : Int)
    (hl : l = pre.length) (hm : m = l + left.length - 1) (hr : r = m + right.length) :
    merge key (pre ++ left ++ right ++ post) l m r =
      some (pre ++ specMerge key left right ++ post) := by
  have hnl : m - l + 1 = (left.length : Int) := by omega
  have hnr : r - m = (right.length : Int) := by omega
  have hcl : copyRun (pre ++ left ++ right ++ post) l left.length 0 = some left := by
    have := copyRun_eq (pre ++ left ++ right ++ post) pre.length left.length 0 (by simp)
    rw [hl]
    simpa [List.append_assoc] using this
  have hcr : copyRun (pre ++ left ++ right ++ post) (m + 1) right.length 0 = some right := by
    have := copyRun_eq (pre ++ left ++ right ++ post) (pre.length + left.length) right.length 0
      (by simp; omega)
    have e : m + 1 = ((pre.length + left.length : Nat) : Int) := by push_cast; omega
    rw [Nat.cast_zero] at this
    rw [e, this, Nat.add_zero, List.append_assoc (pre ++ left), ← List.length_append]
    simp
  obtain ⟨i1, j1, out, todo1, h1, h2, h3, h4, h5, h6⟩ :=
    mergeLoop_spec key left right (left.length + right.length) 0 0 pre (left ++ right) post l
      (by omega) (by omega) (by simp) (by simp) hl
  simp only [List.drop_zero, Nat.cast_zero] at h1 h6
  obtain ⟨tl, tr, rfl, htl, htr⟩ : ∃ tl tr, todo1 = tl ++ tr ∧ tl.length = left.length - i1 ∧
      tr.length = right.length - j1 :=
    ⟨todo1.take (left.length - i1), todo1.drop (left.length - i1), by simp, by simp; omega,
      by simp; omega⟩
  have hb1 := copyBack_eq left left.length i1 (pre ++ out) tl (tr ++ post) (l + out.length) h2 htl
    (by omega) (by simp [hl])
  have hb2 := copyBack_eq right right.length j1 (pre ++ out ++ left.drop i1) tr post
    (l + out.length + ((left.length - i1 : Nat) : Int)) h3 htr (by omega)
    (by simp [hl]; omega)
  have hsm : specMerge key (left.drop i1) (right.drop j1) = left.drop i1 ++ right.drop j1 := by
    rcases h4 with h | h
    · subst h; simp [specMerge_nil_left]
    · subst h; simp [specMerge_nil_right]
  unfold merge
  simp only [hnl, hnr]
  have hneg : ¬ ((left.length : Int) < 0 ∨ (right.length : Int) < 0) := by omega
  rw [if_neg hneg]
  simp only [Int.toNat_ofNat, hcl, hcr, Option.bind_eq_bind, Option.some_bind, ← Nat.cast_add,
    Int.toNat_ofNat]
  simp only [List.append_assoc] at h1 hb1 hb2 ⊢
  rw [h1]
  simp only [Option.some_bind]
  rw [hb1]
  simp only [Option.some_bind]
  rw [hb2]
  simp only [Option.some_bind, Option.pure_def]
  rw [← h6, hsm]
  simp

/-! ## The merge of two lists -/

theorem specMerge_perm (key : α → Int) : ∀ xs ys : List α, (specMerge key xs ys).Perm (xs ++ ys) := by
  intro xs
  induction xs with
  | nil => intro ys; simp [specMerge_nil_left]
  | cons x xs ihx =>
    intro ys
    induction ys with
    | nil => simp [specMerge_nil_right]
    | cons y ys ihy =>
      rw [specMerge_cons_cons]
      split
      · exact (ihx (y :: ys)).cons x
      · exact (ihy.cons y).trans (@List.perm_middle _ y (x :: xs) ys).symm

theorem specMerge_length (key : α → Int) (xs ys : List α) :
    (specMerge key xs ys).length = xs.length + ys.length := by
  rw [(specMerge_perm key xs ys).length_eq, List.length_append]

theorem specMerge_sorted (key : α → Int) : ∀ xs ys : List α, SortedBy key xs → SortedBy key ys →
    SortedBy key (specMerge key xs ys) := by
  intro xs
  induction xs with
  | nil => intro ys _ h; simpa [specMerge_nil_left] using h
  | cons x xs ihx =>
    intro ys
    induction ys with
    | nil => intro h _; simpa [specMerge_nil_right] using h
    | cons y ys ihy =>
      intro hx hy
      have hx1 := List.pairwise_cons.mp hx
      have hy1 := List.pairwise_cons.mp hy
      rw [specMerge_cons_cons]
      split
      · rename_i hle
        refine List.pairwise_cons.mpr ⟨?_, ihx (y :: ys) hx1.2 hy⟩
        intro z hz
        rcases List.mem_append.mp ((specMerge_perm key xs (y :: ys)).mem_iff.mp hz) with h | h
        · exact hx1.1 z h
        · rcases List.mem_cons.mp h with h | h
          · rw [h]; exact hle
          · exact le_trans hle (hy1.1 z h)
      · rename_i hle
        refine List.pairwise_cons.mpr ⟨?_, ihy hx hy1.2⟩
        intro z hz
        have hyx : key y ≤ key x := by omega
        rcases List.mem_append.mp ((specMerge_perm key (x :: xs) ys).mem_iff.mp hz) with h | h
        · rcases List.mem_cons.mp h with h | h
          · rw [h]; exact hyx
          · exact le_trans hyx (hx1.1 z h)
        · exact hy1.1 z h

/-- Ties go to the left: among the elements of one key, those of the left list
come first, in their order. -/
theorem specMerge_filter (key : α → Int) (v : Int) : ∀ xs ys : List α, SortedBy key xs →
    (specMerge key xs ys).filter (fun a => key a = v) =
      xs.filter (fun a => key a = v) ++ ys.filter (fun a => key a = v) := by
  intro xs
  induction xs with
  | nil => intro ys _; simp [specMerge_nil_left]
  | cons x xs ihx =>
    intro ys
    induction ys with
    | nil => intro _; simp [specMerge_nil_right]
    | cons y ys ihy =>
      intro hx
      have hx1 := List.pairwise_cons.mp hx
      rw [specMerge_cons_cons]
      split
      · rw [List.filter_cons, ihx (y :: ys) hx1.2, @List.filter_cons _ x xs]
        split <;> simp
      · rename_i hle
        rw [List.filter_cons, ihy hx, @List.filter_cons _ y ys]
        by_cases hv : key y = v
        · have hnone : (x :: xs).filter (fun a => key a = v) = [] := by
            rw [List.filter_eq_nil_iff]
            intro z hz
            have : key x ≤ key z := by
              rcases List.mem_cons.mp hz with h | h
              · rw [h]
              · exact hx1.1 z h
            simp only [decide_eq_true_eq]
            omega
          simp [hv, hnone]
        · simp [hv]

theorem specMerge_map (key : α → Int) : ∀ xs ys : List α,
    (specMerge key xs ys).map key = specMerge id (xs.map key) (ys.map key) := by
  intro xs
  induction xs with
  | nil => intro ys; simp [specMerge_nil_left]
  | cons x xs ihx =>
    intro ys
    induction ys with
    | nil => simp [specMerge_nil_right]
    | cons y ys ihy =>
      rw [List.map_cons, List.map_cons, specMerge_cons_cons, specMerge_cons_cons]
      simp only [id]
      split
      · rw [List.map_cons, ihx (y :: ys), List.map_cons]
      · rw [List.map_cons, ihy, List.map_cons]

/-! ## The sort of a window, on lists -/

theorem sortedRun_perm (key : α → Int) : ∀ (fuel : Nat) (xs : List α),
    (sortedRun key fuel xs).Perm xs := by
  intro fuel
  induction fuel with
  | zero => intro xs; exact List.Perm.refl _
  | succ fuel ih =>
    intro xs
    rw [sortedRun]
    split
    · exact List.Perm.refl _
    · refine (specMerge_perm key _ _).trans ?_
      refine ((ih _).append (ih _)).trans ?_
      rw [List.take_append_drop]

theorem sortedRun_length (key : α → Int) (fuel : Nat) (xs : List α) :
    (sortedRun key fuel xs).length = xs.length :=
  (sortedRun_perm key fuel xs).length_eq

theorem sortedBy_of_length_le_one (key : α → Int) (xs : List α) (h : xs.length ≤ 1) :
    SortedBy key xs := by
  match xs, h with
  | [], _ => exact List.Pairwise.nil
  | [a], _ => exact List.pairwise_singleton _ a

theorem sortedRun_sorted (key : α → Int) : ∀ (fuel : Nat) (xs : List α), xs.length ≤ fuel →
    SortedBy key (sortedRun key fuel xs) := by
  intro fuel
  induction fuel with
  | zero => intro xs h; exact sortedBy_of_length_le_one key xs (by omega)
  | succ fuel ih =>
    intro xs h
    rw [sortedRun]
    split
    · rename_i h1; exact sortedBy_of_length_le_one key xs h1
    · exact specMerge_sorted key _ _ (ih _ (by simp; omega)) (ih _ (by simp; omega))

theorem sortedRun_filter (key : α → Int) (v : Int) : ∀ (fuel : Nat) (xs : List α),
    xs.length ≤ fuel →
    (sortedRun key fuel xs).filter (fun a => key a = v) = xs.filter (fun a => key a = v) := by
  intro fuel
  induction fuel with
  | zero => intro xs _; rfl
  | succ fuel ih =>
    intro xs h
    rw [sortedRun]
    split
    · rfl
    · simp only []
      rw [specMerge_filter key v _ _ (sortedRun_sorted key fuel _ (by simp; omega)),
        ih _ (by simp; omega), ih _ (by simp; omega), ← List.filter_append, List.take_append_drop]

theorem sortedRun_map (key : α → Int) : ∀ (fuel : Nat) (xs : List α),
    (sortedRun key fuel xs).map key = sortedRun id fuel (xs.map key) := by
  intro fuel
  induction fuel with
  | zero => intro xs; rfl
  | succ fuel ih =>
    intro xs
    rw [sortedRun, sortedRun]
    simp only [List.length_map]
    split
    · rfl
    · rw [specMerge_map, ih, ih, List.map_take, List.map_drop]

/-- More fuel than the length of the window changes nothing. -/
theorem sortedRun_fuel (key : α → Int) : ∀ (fuel1 fuel2 : Nat) (xs : List α),
    xs.length ≤ fuel1 → xs.length ≤ fuel2 → sortedRun key fuel1 xs = sortedRun key fuel2 xs := by
  intro fuel1
  induction fuel1 with
  | zero =>
    intro fuel2 xs h1 _
    cases fuel2 with
    | zero => rfl
    | succ f => rw [sortedRun, sortedRun, if_pos (by omega)]
  | succ fuel1 ih =>
    intro fuel2 xs h1 h2
    cases fuel2 with
    | zero => rw [sortedRun, sortedRun, if_pos (by omega)]
    | succ f =>
      rw [sortedRun, sortedRun]
      split
      · rfl
      · simp only []
        rw [ih f _ (by simp; omega) (by simp; omega), ih f _ (by simp; omega) (by simp; omega)]


/-! ## The array the recursive function leaves -/

theorem den_body (key : α → Int) (maxThreads : Int) : ∀ (fuel : Nat) (depth : Int)
    (pre mid post : List α) (l r : Int), l = pre.length → r = l + mid.length - 1 →
    mid.length ≤ fuel →
    den key (Orchestrator.body maxThreads fuel l r depth) (pre ++ mid ++ post) =
      some (pre ++ sortedRun key fuel mid ++ post) := by
  intro fuel
  induction fuel with
  | zero =>
    intro depth pre mid post l r _ _ h
    rfl
  | succ fuel ih =>
    intro depth pre mid post l r hl hr h
    rw [Orchestrator.body, sortedRun]
    by_cases hlr : l ≥ r
    · rw [if_pos hlr, if_pos (by omega)]
      rfl
    · rw [if_neg hlr, if_neg (by omega)]
      simp only []
      have hh : (mid.length - 1) / 2 + 1 ≤ mid.length := by omega
      have hm : l + (r - l) / 2 = l + ((mid.take ((mid.length - 1) / 2 + 1)).length : Int) - 1 := by
        rw [List.length_take, Nat.min_eq_left hh]
        push_cast
        omega
      have hL := ih (depth - 1) pre (mid.take ((mid.length - 1) / 2 + 1))
        (mid.drop ((mid.length - 1) / 2 + 1) ++ post) l (l + (r - l) / 2) hl hm
        (by rw [List.length_take]; omega)
      have hR := ih (depth - 1) (pre ++ sortedRun key fuel (mid.take ((mid.length - 1) / 2 + 1)))
        (mid.drop ((mid.length - 1) / 2 + 1)) post (l + (r - l) / 2 + 1) r
        (by rw [List.length_append, sortedRun_length, List.length_take, Nat.min_eq_left hh]
            push_cast; omega)
        (by rw [List.length_drop]; omega)
        (by rw [List.length_drop]; omega)
      have hM := merge_append key pre (sortedRun key fuel (mid.take ((mid.length - 1) / 2 + 1)))
        (sortedRun key fuel (mid.drop ((mid.length - 1) / 2 + 1))) post l (l + (r - l) / 2) r hl
        (by rw [sortedRun_length]; exact hm)
        (by rw [sortedRun_length, List.length_drop]; omega)
      have hsplit : pre ++ mid ++ post = pre ++ mid.take ((mid.length - 1) / 2 + 1) ++
          (mid.drop ((mid.length - 1) / 2 + 1) ++ post) := by
        simp only [List.append_assoc]
        rw [← List.append_assoc (mid.take _), List.take_append_drop]
      have hseq : den key (Prog.seq (Orchestrator.body maxThreads fuel l (l + (r - l) / 2) (depth - 1))
          (Orchestrator.body maxThreads fuel (l + (r - l) / 2 + 1) r (depth - 1))) (pre ++ mid ++ post) =
          some (pre ++ sortedRun key fuel (mid.take ((mid.length - 1) / 2 + 1)) ++
            sortedRun key fuel (mid.drop ((mid.length - 1) / 2 + 1)) ++ post) := by
        rw [den, hsplit, hL, Option.some_bind, ← List.append_assoc, hR]
      rw [den]
      have hfirst : den key (if depth > 0 then Prog.admission maxThreads
            (Prog.async (Prog.seq (Orchestrator.body maxThreads fuel l (l + (r - l) / 2) (depth - 1))
              Prog.release) (Orchestrator.body maxThreads fuel (l + (r - l) / 2 + 1) r (depth - 1)))
            (Prog.seq (Orchestrator.body maxThreads fuel l (l + (r - l) / 2) (depth - 1))
              (Orchestrator.body maxThreads fuel (l + (r - l) / 2 + 1) r (depth - 1)))
          else Prog.seq (Orchestrator.body maxThreads fuel l (l + (r - l) / 2) (depth - 1))
              (Orchestrator.body maxThreads fuel (l + (r - l) / 2 + 1) r (depth - 1)))
          (pre ++ mid ++ post) =
          some (pre ++ sortedRun key fuel (mid.take ((mid.length - 1) / 2 + 1)) ++
            sortedRun key fuel (mid.drop ((mid.length - 1) / 2 + 1)) ++ post) := by
        split
        · rw [den]; exact hseq
        · exact hseq
      rw [hfirst, Option.some_bind, den, hM]


/-! ## Functions that rewrite one window of the array -/

theorem actsOn_some (lo hi : Nat) : ActsOn lo hi (fun a : List α => some a) :=
  ⟨id, fun _ => rfl, fun _ _ _ _ _ => rfl⟩

theorem actsOn_bind {lo hi : Nat} {f h : List α → Option (List α)} (hf : ActsOn lo hi f)
    (hh : ActsOn lo hi h) : ActsOn lo hi (fun a => (f a).bind h) := by
  obtain ⟨g1, hlen1, hg1⟩ := hf
  obtain ⟨g2, hlen2, hg2⟩ := hh
  refine ⟨fun x => g2 (g1 x), fun x => by rw [hlen2, hlen1], ?_⟩
  intro pre mid post hpre hmid
  simp only []
  rw [hg1 pre mid post hpre hmid, Option.some_bind, hg2 pre (g1 mid) post hpre (by rw [hlen1]; exact hmid)]

theorem actsOn_mono {lo hi lo1 hi1 : Nat} {f : List α → Option (List α)} (hf : ActsOn lo hi f)
    (h1 : lo1 ≤ lo) (h2 : lo ≤ hi) (h3 : hi ≤ hi1) : ActsOn lo1 hi1 f := by
  obtain ⟨g, hlen, hg⟩ := hf
  refine ⟨fun x => x.take (lo - lo1) ++ g ((x.drop (lo - lo1)).take (hi - lo)) ++
    (x.drop (lo - lo1)).drop (hi - lo), ?_, ?_⟩
  · intro x
    simp only [List.length_append, hlen, List.length_take, List.length_drop]
    omega
  · intro pre mid post hpre hmid
    have e : pre ++ mid ++ post = (pre ++ mid.take (lo - lo1)) ++ (mid.drop (lo - lo1)).take (hi - lo) ++
        ((mid.drop (lo - lo1)).drop (hi - lo) ++ post) := by
      simp only [List.append_assoc]
      rw [← List.append_assoc (List.take (hi - lo) _), List.take_append_drop,
        ← List.append_assoc (List.take (lo - lo1) _), List.take_append_drop]
    rw [e, hg _ _ _ (by simp only [List.length_append, List.length_take]; omega)
      (by simp only [List.length_append, List.length_take, List.length_drop]; omega)]
    simp only [List.append_assoc]

theorem actsOn_merge (key : α → Int) {lo hi : Nat} {l m r : Int} (h1 : (lo : Int) ≤ l) (h2 : l ≤ m)
    (h3 : m < r) (h4 : r < (hi : Int)) : ActsOn lo hi (fun a => merge key a l m r) := by
  have hexact : ActsOn l.toNat (r + 1).toNat (fun a => merge key a l m r) := by
    refine ⟨fun x => specMerge key (x.take (m - l + 1).toNat) (x.drop (m - l + 1).toNat), ?_, ?_⟩
    · intro x
      rw [specMerge_length, ← List.length_append, List.take_append_drop]
    · intro pre mid post hpre hmid
      have e : pre ++ mid ++ post = pre ++ mid.take (m - l + 1).toNat ++ mid.drop (m - l + 1).toNat ++ post := by
        simp only [List.append_assoc]
        rw [← List.append_assoc (List.take _ _), List.take_append_drop]
      simp only []
      rw [e]
      exact merge_append key pre _ _ post l m r (by omega)
        (by rw [List.length_take]; omega) (by rw [List.length_drop]; omega)
  exact actsOn_mono hexact (by omega) (by omega) (by omega)

/-- Rewriting two adjacent windows can be done in either order. -/
theorem actsOn_comm {lo mid hi : Nat} {f h : List α → Option (List α)} (hf : ActsOn lo mid f)
    (hh : ActsOn mid hi h) (h1 : lo ≤ mid) (h2 : mid ≤ hi) (a : List α) (ha : hi ≤ a.length) :
    (f a).bind h = (h a).bind f := by
  obtain ⟨g1, hlen1, hg1⟩ := hf
  obtain ⟨g2, hlen2, hg2⟩ := hh
  have e : a = a.take lo ++ (a.drop lo).take (mid - lo) ++
      (((a.drop lo).drop (mid - lo)).take (hi - mid) ++ ((a.drop lo).drop (mid - lo)).drop (hi - mid)) := by
    rw [List.take_append_drop, List.append_assoc, List.take_append_drop, List.take_append_drop]
  obtain ⟨pre, m1, m2, post, rfl, hp, hm1, hm2⟩ : ∃ pre m1 m2 post : List α,
      a = pre ++ m1 ++ (m2 ++ post) ∧ pre.length = lo ∧ pre.length + m1.length = mid ∧
        mid + m2.length = hi :=
    ⟨_, _, _, _, e, by rw [List.length_take]; omega,
      by simp only [List.length_take, List.length_drop]; omega,
      by simp only [List.length_take, List.length_drop]; omega⟩
  have e1 : pre ++ g1 m1 ++ (m2 ++ post) = (pre ++ g1 m1) ++ m2 ++ post := by
    simp only [List.append_assoc]
  have e2 : pre ++ m1 ++ (m2 ++ post) = (pre ++ m1) ++ m2 ++ post := by
    simp only [List.append_assoc]
  have e3 : (pre ++ m1) ++ g2 m2 ++ post = pre ++ m1 ++ (g2 m2 ++ post) := by
    simp only [List.append_assoc]
  rw [hg1 pre m1 (m2 ++ post) hp hm1, Option.some_bind, e1,
    hg2 (pre ++ g1 m1) m2 post (by rw [List.length_append, hlen1]; omega)
      (by rw [List.length_append, hlen1]; omega),
    e2, hg2 (pre ++ m1) m2 post (by rw [List.length_append]; omega)
      (by rw [List.length_append]; omega),
    Option.some_bind, e3, hg1 pre m1 (g2 m2 ++ post) hp hm1]
  simp only [List.append_assoc]

/-! ## Programs that stay in their window -/

theorem within_mono (key : α → Int) : ∀ (p : Prog) (lo hi lo1 hi1 : Nat), Within key lo hi p →
    lo1 ≤ lo → hi ≤ hi1 → Within key lo1 hi1 p := by
  intro p
  induction p with
  | done => intros; trivial
  | release => intros; trivial
  | mergeCall l m r =>
    intro lo hi lo1 hi1 h h1 h2
    simp only [Within] at h ⊢
    omega
  | admission cap g d ihg ihd =>
    intro lo hi lo1 hi1 h h1 h2
    simp only [Within] at h ⊢
    exact ⟨ihg _ _ _ _ h.1 h1 h2, ihd _ _ _ _ h.2.1 h1 h2, h.2.2⟩
  | seq a b iha ihb =>
    intro lo hi lo1 hi1 h h1 h2
    simp only [Within] at h ⊢
    exact ⟨iha _ _ _ _ h.1 h1 h2, ihb _ _ _ _ h.2 h1 h2⟩
  | async a b iha ihb =>
    intro lo hi lo1 hi1 h h1 h2
    simp only [Within] at h ⊢
    obtain ⟨mid, hm1, hm2, ha, hb⟩ := h
    exact ⟨mid, by omega, by omega, iha _ _ _ _ ha h1 (le_refl _), ihb _ _ _ _ hb (le_refl _) h2⟩

theorem den_actsOn (key : α → Int) : ∀ (p : Prog) (lo hi : Nat), Within key lo hi p → lo ≤ hi →
    ActsOn lo hi (den key p) := by
  intro p
  induction p with
  | done => intro lo hi _ _; exact actsOn_some lo hi
  | release => intro lo hi _ _; exact actsOn_some lo hi
  | mergeCall l m r =>
    intro lo hi h _
    simp only [Within] at h
    exact actsOn_merge key h.1 h.2.1 h.2.2.1 h.2.2.2
  | admission cap g d _ ihd =>
    intro lo hi h hle
    simp only [Within] at h
    exact ihd lo hi h.2.1 hle
  | seq a b iha ihb =>
    intro lo hi h hle
    simp only [Within] at h
    exact actsOn_bind (iha lo hi h.1 hle) (ihb lo hi h.2 hle)
  | async a b iha ihb =>
    intro lo hi h hle
    simp only [Within] at h
    obtain ⟨mid, hm1, hm2, ha, hb⟩ := h
    exact actsOn_bind (actsOn_mono (iha lo mid ha hm1) (le_refl _) hm1 hm2)
      (actsOn_mono (ihb mid hi hb hm2) hm1 hm2 (le_refl _))

theorem den_length (key : α → Int) (p : Prog) (lo hi : Nat) (h : Within key lo hi p) (hle : lo ≤ hi)
    (arr : List α) (harr : hi ≤ arr.length) :
    ∃ out, den key p arr = some out ∧ out.length = arr.length := by
  obtain ⟨g, hlen, hg⟩ := den_actsOn key p lo hi h hle
  have e : arr = arr.take lo ++ (arr.drop lo).take (hi - lo) ++ (arr.drop lo).drop (hi - lo) := by
    rw [List.append_assoc, List.take_append_drop, List.take_append_drop]
  refine ⟨arr.take lo ++ g ((arr.drop lo).take (hi - lo)) ++ (arr.drop lo).drop (hi - lo), ?_, ?_⟩
  · conv_lhs => rw [e]
    exact hg _ _ _ (by rw [List.length_take]; omega)
      (by simp only [List.length_take, List.length_drop]; omega)
  · simp only [List.length_append, hlen, List.length_take, List.length_drop]
    omega

/-! ## One step of a run -/

/-- A step keeps the program in its window, keeps the length of the array, and
does not change the array the run ends with. -/
theorem next_array (key : α → Int) (arr : List α) (act : Int) : ∀ (p : Prog) (lo hi : Nat)
    (c : Config α), Within key lo hi p → lo ≤ hi → hi ≤ arr.length → c ∈ next key p arr act →
    Within key lo hi c.prog ∧ c.arr.length = arr.length ∧ den key c.prog c.arr = den key p arr := by
  intro p
  induction p with
  | done => intro lo hi c _ _ _ hc; simp [next] at hc
  | release =>
    intro lo hi c _ _ _ hc
    simp only [next, List.mem_singleton] at hc
    subst hc
    exact ⟨trivial, rfl, rfl⟩
  | mergeCall l m r =>
    intro lo hi c h hle harr hc
    obtain ⟨out, hout, hlen⟩ := den_length key (Prog.mergeCall l m r) lo hi h hle arr harr
    rw [den] at hout
    simp only [next, hout, List.mem_singleton] at hc
    subst hc
    exact ⟨trivial, hlen, by rw [den, den, hout]⟩
  | admission cap g d _ _ =>
    intro lo hi c h _ _ hc
    simp only [Within] at h
    simp only [next] at hc
    split at hc
    · simp only [List.mem_singleton] at hc
      subst hc
      exact ⟨h.1, rfl, by rw [den]; exact h.2.2 arr⟩
    · simp only [List.mem_singleton] at hc
      subst hc
      exact ⟨h.2.1, rfl, by rw [den]⟩
  | seq a b iha _ =>
    intro lo hi c h hle harr hc
    simp only [Within] at h
    simp only [next] at hc
    split at hc
    · rename_i hdone
      simp only [List.mem_singleton] at hc
      subst hc
      subst hdone
      exact ⟨h.2, rfl, by simp [den]⟩
    · obtain ⟨c0, hc0, rfl⟩ := List.mem_map.mp hc
      obtain ⟨hw, hl, hd⟩ := iha lo hi c0 h.1 hle harr hc0
      exact ⟨⟨hw, h.2⟩, hl, by simp only [den]; rw [hd]⟩
  | async a b iha ihb =>
    intro lo hi c h hle harr hc
    simp only [Within] at h
    obtain ⟨mid, hm1, hm2, ha, hb⟩ := h
    simp only [next] at hc
    split at hc
    · rename_i hdone
      simp only [List.mem_singleton] at hc
      subst hc
      rw [hdone.1, hdone.2]
      exact ⟨trivial, rfl, by simp [den]⟩
    · rcases List.mem_append.mp hc with hc | hc
      · obtain ⟨c0, hc0, rfl⟩ := List.mem_map.mp hc
        obtain ⟨hw, hl, hd⟩ := iha lo mid c0 ha hm1 (by omega) hc0
        exact ⟨⟨mid, hm1, hm2, hw, hb⟩, hl, by simp only [den]; rw [hd]⟩
      · obtain ⟨c0, hc0, rfl⟩ := List.mem_map.mp hc
        obtain ⟨hw, hl, hd⟩ := ihb mid hi c0 hb hm2 harr hc0
        refine ⟨⟨mid, hm1, hm2, ha, hw⟩, hl, ?_⟩
        have comm1 := actsOn_comm (den_actsOn key a lo mid ha hm1) (den_actsOn key b mid hi hb hm2)
          hm1 hm2 arr harr
        have comm2 := actsOn_comm (den_actsOn key a lo mid ha hm1)
          (den_actsOn key c0.prog mid hi hw hm2) hm1 hm2 c0.arr (by omega)
        simp only [den]
        rw [comm2, hd, ← comm1]

/-- A program in its window that has not returned can take a step. -/
theorem next_progress (key : α → Int) (arr : List α) (act : Int) : ∀ (p : Prog) (lo hi : Nat),
    Within key lo hi p → lo ≤ hi → hi ≤ arr.length → p ≠ Prog.done → next key p arr act ≠ [] := by
  intro p
  induction p with
  | done => intro lo hi _ _ _ h; exact absurd rfl h
  | release => intro lo hi _ _ _ _; simp [next]
  | mergeCall l m r =>
    intro lo hi h hle harr _
    obtain ⟨out, hout, _⟩ := den_length key (Prog.mergeCall l m r) lo hi h hle arr harr
    rw [den] at hout
    simp [next, hout]
  | admission cap g d _ _ =>
    intro lo hi _ _ _ _
    simp only [next]
    split <;> simp
  | seq a b iha _ =>
    intro lo hi h hle harr _
    simp only [Within] at h
    simp only [next]
    split
    · simp
    · rename_i hne
      simpa using iha lo hi h.1 hle harr hne
  | async a b iha ihb =>
    intro lo hi h hle harr _
    simp only [Within] at h
    obtain ⟨mid, hm1, hm2, ha, hb⟩ := h
    simp only [next]
    split
    · simp
    · rename_i hne
      by_cases hadone : a = Prog.done
      · have hbne : b ≠ Prog.done := fun hb0 => hne ⟨hadone, hb0⟩
        have := ihb mid hi hb hm2 harr hbne
        simp [this]
      · have := iha lo mid ha hm1 (by omega) hadone
        simp [this]

/-- A step is an admission that is granted, a release, or leaves the counter
alone; the counter moves with the releases that are owed. -/
theorem next_budget (key : α → Int) (maxThreads : Int) (arr : List α) (act : Int) : ∀ (p : Prog)
    (c : Config α), Balanced maxThreads p → c ∈ next key p arr act →
    Balanced maxThreads c.prog ∧
      ((c.activeThreads = act ∧ owed c.prog = owed p) ∨
       (c.activeThreads = act + 1 ∧ act < maxThreads ∧ owed c.prog = owed p + 1) ∨
       (c.activeThreads + 1 = act ∧ owed c.prog + 1 = owed p)) := by
  intro p
  induction p with
  | done => intro c _ hc; simp [next] at hc
  | release =>
    intro c _ hc
    simp only [next, List.mem_singleton] at hc
    subst hc
    exact ⟨trivial, Or.inr (Or.inr ⟨by simp, rfl⟩)⟩
  | mergeCall l m r =>
    intro c _ hc
    simp only [next] at hc
    split at hc
    · simp only [List.mem_singleton] at hc
      subst hc
      exact ⟨trivial, Or.inl ⟨rfl, rfl⟩⟩
    · simp at hc
  | admission cap g d _ _ =>
    intro c h hc
    simp only [Balanced] at h
    obtain ⟨hcap, hg, hd, ho⟩ := h
    subst hcap
    simp only [next] at hc
    split at hc
    · rename_i hlt
      simp only [List.mem_singleton] at hc
      subst hc
      exact ⟨hg, Or.inr (Or.inl ⟨rfl, hlt, by simp only [owed]; exact ho⟩)⟩
    · simp only [List.mem_singleton] at hc
      subst hc
      exact ⟨hd, Or.inl ⟨rfl, rfl⟩⟩
  | seq a b iha _ =>
    intro c h hc
    simp only [Balanced] at h
    simp only [next] at hc
    split at hc
    · rename_i hdone
      simp only [List.mem_singleton] at hc
      subst hc
      subst hdone
      exact ⟨h.2, Or.inl ⟨rfl, by simp [owed]⟩⟩
    · obtain ⟨c0, hc0, rfl⟩ := List.mem_map.mp hc
      obtain ⟨hb, hcase⟩ := iha c0 h.1 hc0
      refine ⟨⟨hb, h.2⟩, ?_⟩
      simp only [owed]
      omega
  | async a b iha ihb =>
    intro c h hc
    simp only [Balanced] at h
    simp only [next] at hc
    split at hc
    · rename_i hdone
      simp only [List.mem_singleton] at hc
      subst hc
      rw [hdone.1, hdone.2]
      exact ⟨trivial, Or.inl ⟨rfl, rfl⟩⟩
    · rcases List.mem_append.mp hc with hc | hc
      · obtain ⟨c0, hc0, rfl⟩ := List.mem_map.mp hc
        obtain ⟨hb, hcase⟩ := iha c0 h.1 hc0
        refine ⟨⟨hb, h.2⟩, ?_⟩
        simp only [owed]
        omega
      · obtain ⟨c0, hc0, rfl⟩ := List.mem_map.mp hc
        obtain ⟨hb, hcase⟩ := ihb c0 h.2 hc0
        refine ⟨⟨h.1, hb⟩, ?_⟩
        simp only [owed]
        omega

/-- Every step shortens the longest run that is left. -/
theorem next_cost (key : α → Int) (arr : List α) (act : Int) : ∀ (p : Prog) (c : Config α),
    c ∈ next key p arr act → cost c.prog < cost p := by
  intro p
  induction p with
  | done => intro c hc; simp [next] at hc
  | release =>
    intro c hc
    simp only [next, List.mem_singleton] at hc
    subst hc
    simp [cost]
  | mergeCall l m r =>
    intro c hc
    simp only [next] at hc
    split at hc
    · simp only [List.mem_singleton] at hc
      subst hc
      simp [cost]
    · simp at hc
  | admission cap g d _ _ =>
    intro c hc
    simp only [next] at hc
    split at hc <;>
    · simp only [List.mem_singleton] at hc
      subst hc
      simp only [cost]
      omega
  | seq a b iha _ =>
    intro c hc
    simp only [next] at hc
    split at hc
    · simp only [List.mem_singleton] at hc
      subst hc
      simp only [cost]
      omega
    · obtain ⟨c0, hc0, rfl⟩ := List.mem_map.mp hc
      have := iha c0 hc0
      simp only [cost]
      omega
  | async a b iha ihb =>
    intro c hc
    simp only [next] at hc
    split at hc
    · simp only [List.mem_singleton] at hc
      subst hc
      simp only [cost]
      omega
    · rcases List.mem_append.mp hc with hc | hc
      · obtain ⟨c0, hc0, rfl⟩ := List.mem_map.mp hc
        have := iha c0 hc0
        simp only [cost]
        omega
      · obtain ⟨c0, hc0, rfl⟩ := List.mem_map.mp hc
        have := ihb c0 hc0
        simp only [cost]
        omega

/-! ## Runs -/

theorem pick_eq_or_mem (key : α → Int) (c : Config α) (choice : Nat) :
    (next key c.prog c.arr c.activeThreads = [] ∧ pick key c choice = c) ∨
      pick key c choice ∈ next key c.prog c.arr c.activeThreads := by
  unfold pick
  simp only []
  cases h : next key c.prog c.arr c.activeThreads with
  | nil => left; exact ⟨rfl, rfl⟩
  | cons d ds =>
    right
    have hlt : choice % (d :: ds).length < (d :: ds).length := Nat.mod_lt _ (by simp)
    rw [List.getD_eq_getElem _ _ hlt]
    exact List.getElem_mem hlt

theorem exec_cons (key : α → Int) (x : Nat) (xs : List Nat) (c : Config α) :
    exec key (x :: xs) c = exec key xs (pick key c x) := rfl

theorem exec_append (key : α → Int) (xs ys : List Nat) (c : Config α) :
    exec key (xs ++ ys) c = exec key ys (exec key xs c) := by
  unfold exec
  rw [List.foldl_append]

theorem exec_done (key : α → Int) : ∀ (sched : List Nat) (c : Config α), c.prog = Prog.done →
    exec key sched c = c := by
  intro sched
  induction sched with
  | nil => intro c _; rfl
  | cons x xs ih =>
    intro c h
    have hp : pick key c x = c := by
      unfold pick
      rw [h]
      rfl
    rw [exec_cons, hp]
    exact ih c h

theorem cost_eq_zero : ∀ p : Prog, cost p = 0 → p = Prog.done := by
  intro p h
  cases p <;> simp only [cost] at h <;> first | rfl | omega

/-- Along a run the counter is the counter at the start plus the admissions
granted and not yet released, and it does not pass `maxThreads`. -/
theorem exec_budget (key : α → Int) (maxThreads : Int) : ∀ (sched : List Nat) (c : Config α),
    Balanced maxThreads c.prog →
    Balanced maxThreads (exec key sched c).prog ∧
      (exec key sched c).activeThreads + owed c.prog = c.activeThreads + owed (exec key sched c).prog ∧
      (c.activeThreads ≤ maxThreads → (exec key sched c).activeThreads ≤ maxThreads) := by
  intro sched
  induction sched with
  | nil => intro c h; exact ⟨h, rfl, fun h => h⟩
  | cons x xs ih =>
    intro c h
    rw [exec_cons]
    rcases pick_eq_or_mem key c x with ⟨_, hp⟩ | hp
    · rw [hp]; exact ih c h
    · obtain ⟨hb, hcase⟩ := next_budget key maxThreads c.arr c.activeThreads c.prog _ h hp
      obtain ⟨h1, h2, h3⟩ := ih _ hb
      refine ⟨h1, by omega, fun hle => h3 (by omega)⟩

/-- Along a run the program stays in its window and the array the run ends
with does not change. -/
theorem exec_array (key : α → Int) (lo hi : Nat) (hle : lo ≤ hi) : ∀ (sched : List Nat)
    (c : Config α), Within key lo hi c.prog → hi ≤ c.arr.length →
    Within key lo hi (exec key sched c).prog ∧ (exec key sched c).arr.length = c.arr.length ∧
      den key (exec key sched c).prog (exec key sched c).arr = den key c.prog c.arr ∧
      ((exec key sched c).prog = Prog.done ∨
        cost (exec key sched c).prog + sched.length ≤ cost c.prog) := by
  intro sched
  induction sched with
  | nil => intro c h _; exact ⟨h, rfl, rfl, Or.inr (le_refl _)⟩
  | cons x xs ih =>
    intro c h harr
    rw [exec_cons]
    rcases pick_eq_or_mem key c x with ⟨hnil, hp⟩ | hp
    · rw [hp]
      have hdone : c.prog = Prog.done := by
        by_contra hne
        exact next_progress key c.arr c.activeThreads c.prog lo hi h hle harr hne hnil
      rw [exec_done key xs c hdone]
      exact ⟨h, rfl, rfl, Or.inl hdone⟩
    · obtain ⟨hw, hl, hd⟩ := next_array key c.arr c.activeThreads c.prog lo hi _ h hle harr hp
      have hc := next_cost key c.arr c.activeThreads c.prog _ hp
      obtain ⟨h1, h2, h3, h4⟩ := ih _ hw (by omega)
      refine ⟨h1, by omega, by rw [h3, hd], ?_⟩
      rcases h4 with h4 | h4
      · exact Or.inl h4
      · right
        simp only [List.length_cons]
        omega

/-- A run that is long enough returns, with the array of the sequential run. -/
theorem exec_returns (key : α → Int) (lo hi : Nat) (hle : lo ≤ hi) (sched : List Nat)
    (c : Config α) (h : Within key lo hi c.prog) (harr : hi ≤ c.arr.length)
    (hs : cost c.prog ≤ sched.length) :
    (exec key sched c).prog = Prog.done ∧ den key c.prog c.arr = some (exec key sched c).arr := by
  obtain ⟨_, _, h3, h4⟩ := exec_array key lo hi hle sched c h harr
  have hdone : (exec key sched c).prog = Prog.done := by
    rcases h4 with h4 | h4
    · exact h4
    · exact cost_eq_zero _ (by omega)
  refine ⟨hdone, ?_⟩
  rw [← h3, hdone]
  rfl

/-! ## The program of the recursive function -/

theorem body_balanced (maxThreads : Int) : ∀ (fuel : Nat) (l r depth : Int),
    Balanced maxThreads (Orchestrator.body maxThreads fuel l r depth) ∧
      owed (Orchestrator.body maxThreads fuel l r depth) = 0 := by
  intro fuel
  induction fuel with
  | zero => intro l r depth; exact ⟨trivial, rfl⟩
  | succ fuel ih =>
    intro l r depth
    rw [Orchestrator.body]
    split
    · exact ⟨trivial, rfl⟩
    · simp only []
      obtain ⟨hL, hL0⟩ := ih l (l + (r - l) / 2) (depth - 1)
      obtain ⟨hR, hR0⟩ := ih (l + (r - l) / 2 + 1) r (depth - 1)
      split
      · simp only [Balanced, owed, hL, hR, hL0, hR0]
        simp
      · simp only [Balanced, owed, hL, hR, hL0, hR0]
        simp

theorem body_within (key : α → Int) (maxThreads : Int) : ∀ (fuel : Nat) (l r depth : Int),
    0 ≤ l → Within key l.toNat (r + 1).toNat (Orchestrator.body maxThreads fuel l r depth) := by
  intro fuel
  induction fuel with
  | zero => intro l r depth _; trivial
  | succ fuel ih =>
    intro l r depth hl
    rw [Orchestrator.body]
    split
    · trivial
    · rename_i hlr
      simp only []
      have hL := ih l (l + (r - l) / 2) (depth - 1) hl
      have hR := ih (l + (r - l) / 2 + 1) r (depth - 1) (by omega)
      have hL1 := within_mono key _ _ _ l.toNat (r + 1).toNat hL (le_refl _) (by omega)
      have hR1 := within_mono key _ _ _ l.toNat (r + 1).toNat hR (by omega) (le_refl _)
      have hM : Within key l.toNat (r + 1).toNat (Prog.mergeCall l (l + (r - l) / 2) r) := by
        simp only [Within]
        omega
      split
      · refine ⟨⟨⟨(l + (r - l) / 2 + 1).toNat, by omega, by omega, ⟨hL, trivial⟩, hR⟩, ⟨hL1, hR1⟩, ?_⟩, hM⟩
        intro arr
        simp [den]
      · exact ⟨⟨hL1, hR1⟩, hM⟩

/-- The bound on the depth of the recursion is never reached: the program
satisfies the recursive equation of the source. -/
theorem body_fuel (maxThreads : Int) : ∀ (fuel1 fuel2 : Nat) (l r depth : Int),
    r - l < fuel1 → r - l < fuel2 →
    Orchestrator.body maxThreads fuel1 l r depth = Orchestrator.body maxThreads fuel2 l r depth := by
  intro fuel1
  induction fuel1 with
  | zero =>
    intro fuel2 l r depth h1 _
    cases fuel2 with
    | zero => rfl
    | succ f => rw [Orchestrator.body, Orchestrator.body, if_pos (by omega)]
  | succ fuel1 ih =>
    intro fuel2 l r depth h1 h2
    cases fuel2 with
    | zero => rw [Orchestrator.body, Orchestrator.body, if_pos (by omega)]
    | succ f =>
      rw [Orchestrator.body, Orchestrator.body]
      split
      · rfl
      · simp only []
        rw [ih f l (l + (r - l) / 2) (depth - 1) (by omega) (by omega),
          ih f (l + (r - l) / 2 + 1) r (depth - 1) (by omega) (by omega)]

theorem parallelMergeSort_eq (l r depth maxThreads : Int) :
    Orchestrator.parallelMergeSort l r depth maxThreads =
      if l ≥ r then Prog.done
      else
        Prog.seq
          (if depth > 0 then
            Prog.admission maxThreads
              (Prog.async
                (Prog.seq (Orchestrator.parallelMergeSort l (l + (r - l) / 2) (depth - 1) maxThreads)
                  Prog.release)
                (Orchestrator.parallelMergeSort (l + (r - l) / 2 + 1) r (depth - 1) maxThreads))
              (Prog.seq (Orchestrator.parallelMergeSort l (l + (r - l) / 2) (depth - 1) maxThreads)
                (Orchestrator.parallelMergeSort (l + (r - l) / 2 + 1) r (depth - 1) maxThreads))
          else
            Prog.seq (Orchestrator.parallelMergeSort l (l + (r - l) / 2) (depth - 1) maxThreads)
              (Orchestrator.parallelMergeSort (l + (r - l) / 2 + 1) r (depth - 1) maxThreads))
          (Prog.mergeCall l (l + (r - l) / 2) r) := by
  unfold Orchestrator.parallelMergeSort
  rw [Orchestrator.body]
  split
  · rfl
  · simp only []
    rw [body_fuel maxThreads (r - l).toNat ((l + (r - l) / 2 - l).toNat + 1) l (l + (r - l) / 2)
        (depth - 1) (by omega) (by omega),
      body_fuel maxThreads (r - l).toNat ((r - (l + (r - l) / 2 + 1)).toNat + 1) (l + (r - l) / 2 + 1) r
        (depth - 1) (by omega) (by omega)]

/-! ## `merge` on the windows of an array -/

theorem split_at_three (arr : List α) (a b c : Nat) (hab : a ≤ b) (hbc : b ≤ c) :
    arr = arr.take a ++ (arr.drop a).take (b - a) ++ (arr.drop b).take (c - b) ++ arr.drop c := by
  have e1 : arr.drop b = (arr.drop a).drop (b - a) := by
    rw [List.drop_drop]; congr 1; omega
  have e2 : arr.drop c = (arr.drop b).drop (c - b) := by
    rw [List.drop_drop]; congr 1; omega
  rw [e2, List.append_assoc, List.take_append_drop, e1, List.append_assoc, List.take_append_drop,
    List.take_append_drop]

theorem window_append (pre mid post : List α) (l r : Int) (hl : l = pre.length)
    (hr : r + 1 = l + mid.length) : window (pre ++ mid ++ post) l r = mid := by
  unfold window
  rw [List.append_assoc, List.drop_left' (by omega), List.take_left' (by omega)]

/-- The call `merge(arr, l, m, r)` inside the array: it returns, and rewrites the
window `arr[l..r]` by the merge of its two halves. -/
theorem merge_eq (key : α → Int) (arr : List α) (l m r : Int) (h0 : 0 ≤ l) (h1 : l ≤ m)
    (h2 : m < r) (h3 : r < arr.length) :
    merge key arr l m r =
      some (arr.take l.toNat ++ specMerge key (window arr l m) (window arr (m + 1) r) ++
        arr.drop (r + 1).toNat) := by
  have e := split_at_three arr l.toNat (m + 1).toNat (r + 1).toNat (by omega) (by omega)
  have w1 : window arr l m = (arr.drop l.toNat).take ((m + 1).toNat - l.toNat) := by
    unfold window; congr 1; omega
  have w2 : window arr (m + 1) r = (arr.drop (m + 1).toNat).take ((r + 1).toNat - (m + 1).toNat) := by
    unfold window; congr 1; omega
  rw [w1, w2]
  conv_lhs => rw [e]
  exact merge_append key _ _ _ _ l m r (by rw [List.length_take]; omega)
    (by simp only [List.length_take, List.length_drop]; omega)
    (by simp only [List.length_take, List.length_drop]; omega)

theorem window_merge (key : α → Int) (arr : List α) (l m r : Int) (h0 : 0 ≤ l) (h1 : l ≤ m)
    (h2 : m < r) (h3 : r < arr.length) :
    window (arr.take l.toNat ++ specMerge key (window arr l m) (window arr (m + 1) r) ++
        arr.drop (r + 1).toNat) l r = specMerge key (window arr l m) (window arr (m + 1) r) := by
  refine window_append _ _ _ l r (by rw [List.length_take]; omega) ?_
  rw [specMerge_length]
  unfold window
  simp only [List.length_take, List.length_drop]
  omega

theorem window_split (arr : List α) (l m r : Int) (h0 : 0 ≤ l) (h1 : l ≤ m) (h2 : m < r) :
    window arr l r = window arr l m ++ window arr (m + 1) r := by
  unfold window
  have e1 : (r - l + 1).toNat = (m - l + 1).toNat + (r - (m + 1) + 1).toNat := by omega
  have e2 : (m + 1).toNat = l.toNat + (m - l + 1).toNat := by omega
  rw [e1, List.take_add, e2, List.drop_drop]

/-! ## The run of the wrapper -/

theorem sortedRun_short (key : α → Int) (fuel : Nat) (xs : List α) (h : xs.length ≤ 1) :
    sortedRun key fuel xs = xs := by
  cases fuel with
  | zero => rfl
  | succ f => rw [sortedRun, if_pos h]

/-- The program the wrapper starts on an array of length `n` stays inside the
array, and run sequentially it leaves the sorted run of the whole array. -/
theorem driver_den (key : α → Int) (arr : List α) (maxThreads : Int) :
    Within key 0 arr.length (Driver.parallelMergeSort arr arr.length maxThreads).prog ∧
      (Driver.parallelMergeSort arr arr.length maxThreads).arr = arr ∧
      den key (Driver.parallelMergeSort arr arr.length maxThreads).prog arr =
        some (sortedRun key arr.length arr) := by
  unfold Driver.parallelMergeSort
  by_cases hn : (arr.length : Int) ≤ 1
  · rw [if_pos hn]
    exact ⟨trivial, rfl, by rw [sortedRun_short key _ arr (by omega)]; rfl⟩
  · rw [if_neg hn]
    simp only []
    have hw := body_within key maxThreads (((arr.length : Int) - 1 - 0).toNat + 1) 0
      ((arr.length : Int) - 1) (min (log2 maxThreads + 1) (log2 arr.length)) (le_refl _)
    have hden := den_body key maxThreads (((arr.length : Int) - 1 - 0).toNat + 1)
      (min (log2 maxThreads + 1) (log2 arr.length)) [] arr [] 0 ((arr.length : Int) - 1) rfl
      (by omega) (by omega)
    have hfuel : ((arr.length : Int) - 1 - 0).toNat + 1 = arr.length := by omega
    have hhi : ((arr.length : Int) - 1 + 1).toNat = arr.length := by omega
    simp only [List.nil_append, List.append_nil] at hden
    rw [hhi] at hw
    refine ⟨hw, trivial, ?_⟩
    unfold Orchestrator.parallelMergeSort
    rw [hden, hfuel]

/-- The wrapper on an array of length `n`: every run that is long enough
returns, and when a run has returned the array is the sorted run of the whole
array. -/
theorem driver_run (key : α → Int) (arr : List α) (maxThreads : Int) (sched : List Nat) :
    (cost (Driver.parallelMergeSort arr arr.length maxThreads).prog ≤ sched.length →
      (exec key sched (Driver.parallelMergeSort arr arr.length maxThreads)).prog = Prog.done) ∧
    ((exec key sched (Driver.parallelMergeSort arr arr.length maxThreads)).prog = Prog.done →
      (exec key sched (Driver.parallelMergeSort arr arr.length maxThreads)).arr =
        sortedRun key arr.length arr) := by
  obtain ⟨hw, harr, hden⟩ := driver_den key arr maxThreads
  have hlen : arr.length ≤ (Driver.parallelMergeSort arr arr.length maxThreads).arr.length := by
    rw [harr]
  constructor
  · intro hs
    exact (exec_returns key 0 arr.length (Nat.zero_le _) sched _ hw hlen hs).1
  · intro hdone
    obtain ⟨_, _, h3, _⟩ := exec_array key 0 arr.length (Nat.zero_le _) sched _ hw hlen
    rw [hdone, harr, hden, den] at h3
    exact Option.some.inj h3

/-! ## Stability, seen on elements that carry their position -/

theorem pairwise_of_filter (key : α → Int) (R : α → α → Prop) : ∀ xs : List α,
    (∀ v : Int, (xs.filter fun a => key a = v).Pairwise R) →
    xs.Pairwise fun a b => key a = key b → R a b := by
  intro xs
  induction xs with
  | nil => intro _; exact List.Pairwise.nil
  | cons x xs ih =>
    intro h
    refine List.pairwise_cons.mpr ⟨?_, ih ?_⟩
    · intro b hb hk
      have := h (key x)
      rw [List.filter_cons, if_pos (by simp)] at this
      exact (List.pairwise_cons.mp this).1 b (List.mem_filter.mpr ⟨hb, by simp [hk]⟩)
    · intro v
      have := h v
      rw [List.filter_cons] at this
      split at this
      · exact (List.pairwise_cons.mp this).2
      · exact this

theorem log2_ge_one (n : Int) (h : 2 ≤ n) : 1 ≤ log2 n := by
  unfold log2
  obtain ⟨k, hk⟩ : ∃ k, n.toNat = k + 1 := ⟨n.toNat - 1, by omega⟩
  rw [hk, floorLog2, if_pos (by omega)]
  push_cast
  omega

theorem admissionChecks_body (maxThreads : Int) : ∀ (fuel : Nat) (l r depth : Int), depth ≤ 0 →
    admissionChecks (Orchestrator.body maxThreads fuel l r depth) = 0 := by
  intro fuel
  induction fuel with
  | zero => intro l r depth _; rfl
  | succ fuel ih =>
    intro l r depth hd
    rw [Orchestrator.body]
    split
    · rfl
    · simp only []
      rw [if_neg (by omega)]
      simp only [admissionChecks, ih _ _ (depth - 1) (by omega)]

theorem pairwise_get (xs : List Int) (h : xs.Pairwise fun a b => a ≤ b) (i j : Nat) (hij : i < j)
    (hj : j < xs.length) : xs.get ⟨i, Nat.lt_trans hij hj⟩ ≤ xs.get ⟨j, hj⟩ :=
  List.pairwise_iff_get.mp h ⟨i, Nat.lt_trans hij hj⟩ ⟨j, hj⟩ hij

theorem sortedRun_of_sorted (xs : List Int) (fuel : Nat) (hf : xs.length ≤ fuel)
    (h : xs.Pairwise fun a b => a ≤ b) : sortedRun id fuel xs = xs := by
  have hs : (sortedRun id fuel xs).Pairwise fun a b : Int => a ≤ b := sortedRun_sorted id fuel xs hf
  exact List.Perm.eq_of_sorted (fun a b _ _ h1 h2 => le_antisymm h1 h2) hs h
    (sortedRun_perm id fuel xs)

theorem tagged_length (arr : List Int) : (tagged arr).length = arr.length := by
  simp [tagged]

theorem tagged_map_fst (arr : List Int) : (tagged arr).map Prod.fst = arr := by
  unfold tagged
  exact List.map_fst_zip _ _ (by simp)

theorem tagged_pairwise (arr : List Int) : (tagged arr).Pairwise fun a b => a.2 < b.2 := by
  have h : ((tagged arr).map Prod.snd).Pairwise (· < ·) := by
    unfold tagged
    rw [List.map_snd_zip _ _ (by simp)]
    exact List.pairwise_lt_range _
  exact List.pairwise_map.mp h

theorem driver_balanced (arr : List α) (n maxThreads : Int) :
    Balanced maxThreads (Driver.parallelMergeSort arr n maxThreads).prog ∧
      owed (Driver.parallelMergeSort arr n maxThreads).prog = 0 ∧
      (Driver.parallelMergeSort arr n maxThreads).activeThreads = 0 := by
  unfold Driver.parallelMergeSort
  split
  · exact ⟨trivial, rfl, rfl⟩
  · exact ⟨(body_balanced maxThreads _ _ _ _).1, (body_balanced maxThreads _ _ _ _).2, rfl⟩

theorem log2_one : log2 1 = 0 := by decide

theorem driver_capacity_one (arr : List α) (n : Int) (hn : 2 ≤ n) :
    Driver.parallelMergeSort arr n 1 =
      ⟨Prog.seq
        (Prog.admission 1
          (Prog.async
            (Prog.seq (Orchestrator.parallelMergeSort 0 (0 + (n - 1 - 0) / 2) (1 - 1) 1) Prog.release)
            (Orchestrator.parallelMergeSort (0 + (n - 1 - 0) / 2 + 1) (n - 1) (1 - 1) 1))
          (Prog.seq (Orchestrator.parallelMergeSort 0 (0 + (n - 1 - 0) / 2) (1 - 1) 1)
            (Orchestrator.parallelMergeSort (0 + (n - 1 - 0) / 2 + 1) (n - 1) (1 - 1) 1)))
        (Prog.mergeCall 0 (0 + (n - 1 - 0) / 2) (n - 1)), arr, 0⟩ := by
  have hd : min (log2 1 + 1) (log2 n) = 1 := by
    have := log2_ge_one n hn
    rw [log2_one]
    omega
  unfold Driver.parallelMergeSort
  rw [if_neg (by omega)]
  simp only [hd]
  rw [parallelMergeSort_eq, if_neg (by omega), if_pos (by omega)]

theorem pick_admission_granted (key : α → Int) (maxThreads : Int) (granted denied rest : Prog)
    (arr : List α) (active : Int) (h : active < maxThreads) (choice : Nat) :
    pick key ⟨Prog.seq (Prog.admission maxThreads granted denied) rest, arr, active⟩ choice =
      ⟨Prog.seq granted rest, arr, active + 1⟩ := by
  simp [pick, next, h, Nat.mod_one]

/-! ## The claims -/

set_option maxRecDepth 1000000

/-- C1 (sortedness). For an `int` array of length `n` and `maxThreads ≥ 1`, under
every interleaving of the threads the wrapper returns (a run of `cost` steps is
long enough), and when it has returned the array has its length `n` and is
ascending: `arr[i] ≤ arr[j]` for all `i < j < n`. -/
theorem sort_ascending (arr : List Int) (maxThreads : Int) (_hcap : 1 ≤ maxThreads)
    (sched : List Nat) :
    (cost (Driver.parallelMergeSort arr arr.length maxThreads).prog ≤ sched.length →
      (exec id sched (Driver.parallelMergeSort arr arr.length maxThreads)).prog = Prog.done) ∧
    ((exec id sched (Driver.parallelMergeSort arr arr.length maxThreads)).prog = Prog.done →
      (exec id sched (Driver.parallelMergeSort arr arr.length maxThreads)).arr.length = arr.length ∧
      ∀ (i j : Nat) (hij : i < j)
        (hj : j < (exec id sched (Driver.parallelMergeSort arr arr.length maxThreads)).arr.length),
        (exec id sched (Driver.parallelMergeSort arr arr.length maxThreads)).arr.get
            ⟨i, Nat.lt_trans hij hj⟩ ≤
          (exec id sched (Driver.parallelMergeSort arr arr.length maxThreads)).arr.get ⟨j, hj⟩) := by
  obtain ⟨h1, h2⟩ := driver_run id arr maxThreads sched
  refine ⟨h1, fun hd => ?_⟩
  have e := h2 hd
  have hp : (exec id sched (Driver.parallelMergeSort arr arr.length maxThreads)).arr.Pairwise
      fun a b => a ≤ b := by
    rw [e]; exact sortedRun_sorted id _ arr (le_refl _)
  exact ⟨by rw [e, sortedRun_length], fun i j hij hj => pairwise_get _ hp i j hij hj⟩

/-- C1 on the array of `main`: with `maxThreads = 4` the run that always moves the
first thread that can move returns after 57 steps with `1, 2, ..., 13`. -/
theorem sort_ascending_witness :
    (1 : Int) ≤ 4 ∧
    (exec id (List.replicate 57 0)
      (Driver.parallelMergeSort [12, 11, 13, 5, 6, 7, 1, 8, 9, 10, 4, 3, 2] 13 4)).prog = Prog.done ∧
    (exec id (List.replicate 57 0)
      (Driver.parallelMergeSort [12, 11, 13, 5, 6, 7, 1, 8, 9, 10, 4, 3, 2] 13 4)).arr =
      [1, 2, 3, 4, 5, 6, 7, 8, 9, 10, 11, 12, 13] :=
  ⟨by decide,
    (sort_ascending [12, 11, 13, 5, 6, 7, 1, 8, 9, 10, 4, 3, 2] 4 (by decide)
      (List.replicate 57 0)).1 (by decide),
    by decide⟩

/-- C2 (permutation). For an `int` array of length `n` and `maxThreads ≥ 1`, under
every interleaving the wrapper returns, and when it has returned the multiset of
the elements of the array is the multiset before the call. -/
theorem sort_permutation (arr : List Int) (maxThreads : Int) (_hcap : 1 ≤ maxThreads)
    (sched : List Nat) :
    (cost (Driver.parallelMergeSort arr arr.length maxThreads).prog ≤ sched.length →
      (exec id sched (Driver.parallelMergeSort arr arr.length maxThreads)).prog = Prog.done) ∧
    ((exec id sched (Driver.parallelMergeSort arr arr.length maxThreads)).prog = Prog.done →
      Multiset.ofList (exec id sched (Driver.parallelMergeSort arr arr.length maxThreads)).arr =
        Multiset.ofList arr) := by
  obtain ⟨h1, h2⟩ := driver_run id arr maxThreads sched
  refine ⟨h1, fun hd => ?_⟩
  rw [h2 hd]
  exact Multiset.coe_eq_coe.mpr (sortedRun_perm id _ arr)

/-- C2 on `[3, 1, 2, 1]` with `maxThreads = 2`, on a run that alternates between
the threads. -/
theorem sort_permutation_witness :
    (1 : Int) ≤ 2 ∧
    (exec id [1, 0, 1, 0, 1, 0, 1, 0, 1, 0, 1, 0, 1, 0, 1, 0, 1, 0, 1, 0]
      (Driver.parallelMergeSort [3, 1, 2, 1] 4 2)).prog = Prog.done ∧
    Multiset.ofList (exec id [1, 0, 1, 0, 1, 0, 1, 0, 1, 0, 1, 0, 1, 0, 1, 0, 1, 0, 1, 0]
      (Driver.parallelMergeSort [3, 1, 2, 1] 4 2)).arr = Multiset.ofList [3, 1, 2, 1] :=
  ⟨by decide,
    (sort_permutation [3, 1, 2, 1] 2 (by decide)
      [1, 0, 1, 0, 1, 0, 1, 0, 1, 0, 1, 0, 1, 0, 1, 0, 1, 0, 1, 0]).1 (by decide),
    (sort_permutation [3, 1, 2, 1] 2 (by decide)
      [1, 0, 1, 0, 1, 0, 1, 0, 1, 0, 1, 0, 1, 0, 1, 0, 1, 0, 1, 0]).2 (by decide)⟩

/-- C3 (stability). Sort the elements of an `int` array together with their
positions, comparing the values only (`maxThreads ≥ 1`, any interleaving).  The
wrapper returns; the result is a rearrangement of the tagged input, its values
are the array every returned run on the plain `int`s leaves, and of two elements
of equal value the one that was earlier in the input is earlier in the output. -/
theorem sort_stable (arr : List Int) (maxThreads : Int) (_hcap : 1 ≤ maxThreads)
    (sched : List Nat) :
    (cost (Driver.parallelMergeSort (tagged arr) (tagged arr).length maxThreads).prog ≤ sched.length →
      (exec Prod.fst sched (Driver.parallelMergeSort (tagged arr) (tagged arr).length maxThreads)).prog =
        Prog.done) ∧
    ((exec Prod.fst sched (Driver.parallelMergeSort (tagged arr) (tagged arr).length maxThreads)).prog =
        Prog.done →
      (exec Prod.fst sched
        (Driver.parallelMergeSort (tagged arr) (tagged arr).length maxThreads)).arr.Perm (tagged arr) ∧
      (∀ sched2 : List Nat,
        (exec id sched2 (Driver.parallelMergeSort arr arr.length maxThreads)).prog = Prog.done →
        (exec Prod.fst sched
          (Driver.parallelMergeSort (tagged arr) (tagged arr).length maxThreads)).arr.map Prod.fst =
          (exec id sched2 (Driver.parallelMergeSort arr arr.length maxThreads)).arr) ∧
      (exec Prod.fst sched
        (Driver.parallelMergeSort (tagged arr) (tagged arr).length maxThreads)).arr.Pairwise
        fun a b => a.1 = b.1 → a.2 < b.2) := by
  obtain ⟨h1, h2⟩ := driver_run Prod.fst (tagged arr) maxThreads sched
  refine ⟨h1, fun hd => ?_⟩
  rw [h2 hd]
  refine ⟨sortedRun_perm _ _ _, ?_, ?_⟩
  · intro sched2 hd2
    rw [(driver_run id arr maxThreads sched2).2 hd2, sortedRun_map, tagged_map_fst, tagged_length]
  · refine pairwise_of_filter Prod.fst (fun a b => a.2 < b.2) _ ?_
    intro v
    rw [sortedRun_filter Prod.fst v _ _ (le_refl _)]
    exact (tagged_pairwise arr).sublist (List.filter_sublist _)

/-- C3 on `[5, 4, 4, 3]`: the 4 of position 1 stays before the 4 of position 2. -/
theorem sort_stable_witness :
    (1 : Int) ≤ 4 ∧
    (exec Prod.fst (List.replicate 20 0)
      (Driver.parallelMergeSort (tagged [5, 4, 4, 3]) (tagged [5, 4, 4, 3]).length 4)).prog =
      Prog.done ∧
    (exec Prod.fst (List.replicate 20 0)
      (Driver.parallelMergeSort (tagged [5, 4, 4, 3]) (tagged [5, 4, 4, 3]).length 4)).arr =
      [(3, 3), (4, 1), (4, 2), (5, 0)] ∧
    (exec Prod.fst (List.replicate 20 0)
      (Driver.parallelMergeSort (tagged [5, 4, 4, 3]) (tagged [5, 4, 4, 3]).length 4)).arr.Pairwise
      fun a b => a.1 = b.1 → a.2 < b.2 :=
  ⟨by decide,
    (sort_stable [5, 4, 4, 3] 4 (by decide) (List.replicate 20 0)).1 (by decide),
    by decide,
    ((sort_stable [5, 4, 4, 3] 4 (by decide) (List.replicate 20 0)).2 (by decide)).2.2⟩

/-- C5 (idempotence). For `maxThreads ≥ 1` and any interleavings: the wrapper
returns; on an ascending array a returned run leaves the array as it was; and a
second sort of the array a first sort has left returns with that same array. -/
theorem sort_idempotent (arr : List Int) (maxThreads1 maxThreads2 : Int) (_h1 : 1 ≤ maxThreads1)
    (_h2 : 1 ≤ maxThreads2) (sched1 sched2 : List Nat) :
    (cost (Driver.parallelMergeSort arr arr.length maxThreads1).prog ≤ sched1.length →
      (exec id sched1 (Driver.parallelMergeSort arr arr.length maxThreads1)).prog = Prog.done) ∧
    ((exec id sched1 (Driver.parallelMergeSort arr arr.length maxThreads1)).prog = Prog.done →
      ((arr.Pairwise fun a b => a ≤ b) →
        (exec id sched1 (Driver.parallelMergeSort arr arr.length maxThreads1)).arr = arr) ∧
      (cost (Driver.parallelMergeSort
            (exec id sched1 (Driver.parallelMergeSort arr arr.length maxThreads1)).arr
            (exec id sched1 (Driver.parallelMergeSort arr arr.length maxThreads1)).arr.length
            maxThreads2).prog ≤ sched2.length →
        (exec id sched2 (Driver.parallelMergeSort
            (exec id sched1 (Driver.parallelMergeSort arr arr.length maxThreads1)).arr
            (exec id sched1 (Driver.parallelMergeSort arr arr.length maxThreads1)).arr.length
            maxThreads2)).prog = Prog.done) ∧
      ((exec id sched2 (Driver.parallelMergeSort
            (exec id sched1 (Driver.parallelMergeSort arr arr.length maxThreads1)).arr
            (exec id sched1 (Driver.parallelMergeSort arr arr.length maxThreads1)).arr.length
            maxThreads2)).prog = Prog.done →
        (exec id sched2 (Driver.parallelMergeSort
            (exec id sched1 (Driver.parallelMergeSort arr arr.length maxThreads1)).arr
            (exec id sched1 (Driver.parallelMergeSort arr arr.length maxThreads1)).arr.length
            maxThreads2)).arr =
          (exec id sched1 (Driver.parallelMergeSort arr arr.length maxThreads1)).arr)) := by
  obtain ⟨h1, h2⟩ := driver_run id arr maxThreads1 sched1
  refine ⟨h1, fun hd => ⟨fun hsorted => ?_, ?_⟩⟩
  · rw [h2 hd]
    exact sortedRun_of_sorted arr _ (le_refl _) hsorted
  · obtain ⟨h3, h4⟩ := driver_run id
      (exec id sched1 (Driver.parallelMergeSort arr arr.length maxThreads1)).arr maxThreads2 sched2
    refine ⟨h3, fun hd2 => ?_⟩
    rw [h4 hd2]
    refine sortedRun_of_sorted _ _ (le_refl _) ?_
    rw [h2 hd]
    exact sortedRun_sorted id _ arr (le_refl _)

/-- C5 on `[3, 1, 2]`: sorted with `maxThreads = 4`, then again with
`maxThreads = 1`. -/
theorem sort_idempotent_witness :
    (1 : Int) ≤ 4 ∧ (1 : Int) ≤ 1 ∧
    (exec id (List.replicate 14 0) (Driver.parallelMergeSort [3, 1, 2] 3 4)).arr = [1, 2, 3] ∧
    (exec id (List.replicate 14 1) (Driver.parallelMergeSort
      (exec id (List.replicate 14 0) (Driver.parallelMergeSort [3, 1, 2] 3 4)).arr
      (exec id (List.replicate 14 0) (Driver.parallelMergeSort [3, 1, 2] 3 4)).arr.length 1)).arr =
      (exec id (List.replicate 14 0) (Driver.parallelMergeSort [3, 1, 2] 3 4)).arr :=
  ⟨by decide, by decide, by decide,
    ((sort_idempotent [3, 1, 2] 4 1 (by decide) (by decide) (List.replicate 14 0)
      (List.replicate 14 1)).2 (by decide)).2.2 (by decide)⟩

/-- C6 (boundary). With `n ≤ 1` the wrapper has returned at once, for every
`maxThreads`: there is no program left to run (no recursive call, no admission
check, no release), no step is possible, and under every schedule the array is
the one that was passed. -/
theorem driver_short (key : α → Int) (arr : List α) (n maxThreads : Int) (hn : n ≤ 1)
    (sched : List Nat) :
    (Driver.parallelMergeSort arr n maxThreads).prog = Prog.done ∧
    next key (Driver.parallelMergeSort arr n maxThreads).prog
      (Driver.parallelMergeSort arr n maxThreads).arr
      (Driver.parallelMergeSort arr n maxThreads).activeThreads = [] ∧
    (exec key sched (Driver.parallelMergeSort arr n maxThreads)).prog = Prog.done ∧
    (exec key sched (Driver.parallelMergeSort arr n maxThreads)).arr = arr := by
  have e : Driver.parallelMergeSort arr n maxThreads = ⟨Prog.done, arr, 0⟩ := by
    unfold Driver.parallelMergeSort
    rw [if_pos hn]
  rw [exec_done key sched _ (by rw [e]), e]
  exact ⟨rfl, rfl, rfl, rfl⟩

/-- C6 on the one-element array `[7]` and on the empty array (schedule
`[0, 1, 2]`, `maxThreads = 8`). -/
theorem driver_short_witness :
    (1 : Int) ≤ 1 ∧ (0 : Int) ≤ 1 ∧
    (Driver.parallelMergeSort [(7 : Int)] 1 8).prog = Prog.done ∧
    (exec id [0, 1, 2] (Driver.parallelMergeSort [(7 : Int)] 1 8)).arr = [7] ∧
    (exec id [0, 1, 2] (Driver.parallelMergeSort ([] : List Int) 0 8)).arr = [] :=
  ⟨by decide, by decide, (driver_short id [(7 : Int)] 1 8 (by decide) [0, 1, 2]).1,
    (driver_short id [(7 : Int)] 1 8 (by decide) [0, 1, 2]).2.2.2,
    (driver_short id ([] : List Int) 0 8 (by decide) [0, 1, 2]).2.2.2⟩

/-- C7, the claim as stated fails: on `[2, 1]` with `maxThreads = 1` the wrapper
starts with `activeThreads = 0`, and the first step of the run is the admission
check of the top-level call, which succeeds: the counter is 1 and what is left
to run is the parallel branch. -/
theorem capacity_one_admits :
    (Driver.parallelMergeSort [(2 : Int), 1] 2 1).activeThreads = 0 ∧
    (exec id [0] (Driver.parallelMergeSort [(2 : Int), 1] 2 1)).activeThreads = 1 ∧
    (exec id [0] (Driver.parallelMergeSort [(2 : Int), 1] 2 1)).prog =
      Prog.seq (Prog.async (Prog.seq Prog.done Prog.release) Prog.done) (Prog.mergeCall 0 0 1) := by
  decide

/-- C7 as amended. With `maxThreads = 1` and `n ≥ 2` a run performs the admission
check exactly once: it is the first step of the run, made by the top-level call,
and it succeeds (`activeThreads` goes from 0 to 1); what is left to run after it
contains no admission check, and the counter never passes 1. -/
theorem capacity_one_single_admission (key : α → Int) (arr : List α) (n : Int) (hn : 2 ≤ n)
    (choice : Nat) (sched : List Nat) :
    admissionChecks (Driver.parallelMergeSort arr n 1).prog = 1 ∧
    (Driver.parallelMergeSort arr n 1).activeThreads = 0 ∧
    (pick key (Driver.parallelMergeSort arr n 1) choice).activeThreads = 1 ∧
    admissionChecks (pick key (Driver.parallelMergeSort arr n 1) choice).prog = 0 ∧
    (exec key sched (Driver.parallelMergeSort arr n 1)).activeThreads ≤ 1 := by
  have hb := driver_balanced arr n 1
  have hle := (exec_budget key 1 sched _ hb.1).2.2 (by rw [hb.2.2]; decide)
  have hL := admissionChecks_body 1 (((0 : Int) + (n - 1 - 0) / 2 - 0).toNat + 1) 0
    (0 + (n - 1 - 0) / 2) (1 - 1) (by decide)
  have hR := admissionChecks_body 1 ((n - 1 - ((0 : Int) + (n - 1 - 0) / 2 + 1)).toNat + 1)
    (0 + (n - 1 - 0) / 2 + 1) (n - 1) (1 - 1) (by decide)
  refine ⟨?_, ?_, ?_, ?_, hle⟩
  · rw [driver_capacity_one arr n hn]
    simp only [admissionChecks, Orchestrator.parallelMergeSort, hL, hR]
    rfl
  · rw [driver_capacity_one arr n hn]
  · rw [driver_capacity_one arr n hn, pick_admission_granted key 1 _ _ _ arr 0 (by decide)]
    rfl
  · rw [driver_capacity_one arr n hn, pick_admission_granted key 1 _ _ _ arr 0 (by decide)]
    simp only [admissionChecks, Orchestrator.parallelMergeSort, hL, hR]

/-- C7 as amended, on `[3, 1, 2]`. -/
theorem capacity_one_single_admission_witness :
    (2 : Int) ≤ 3 ∧
    admissionChecks (Driver.parallelMergeSort [(3 : Int), 1, 2] 3 1).prog = 1 ∧
    (pick id (Driver.parallelMergeSort [(3 : Int), 1, 2] 3 1) 5).activeThreads = 1 ∧
    admissionChecks (pick id (Driver.parallelMergeSort [(3 : Int), 1, 2] 3 1) 5).prog = 0 :=
  ⟨by decide,
    (capacity_one_single_admission id [(3 : Int), 1, 2] 3 (by decide) 5 []).1,
    (capacity_one_single_admission id [(3 : Int), 1, 2] 3 (by decide) 5 []).2.2.1,
    (capacity_one_single_admission id [(3 : Int), 1, 2] 3 (by decide) 5 []).2.2.2.1⟩

/-- C8 (budget invariant). With `maxThreads ≥ 0` and the counter at 0, in every
state a run of the recursive function reaches (any range, any depth, any
interleaving) `0 ≤ activeThreads ≤ maxThreads`; so it is in every state a run of
the wrapper reaches.  Every step of the wrapper's run leaves the counter alone,
or increments it from a value below `maxThreads` (an admission that is granted),
or decrements it from a value of at least 1 (a release). -/
theorem budget_invariant (key : α → Int) (arr : List α) (n maxThreads : Int)
    (hcap : 0 ≤ maxThreads) (l r depth : Int) (sched : List Nat) :
    (0 ≤ (exec key sched ⟨Orchestrator.parallelMergeSort l r depth maxThreads, arr, 0⟩).activeThreads ∧
      (exec key sched ⟨Orchestrator.parallelMergeSort l r depth maxThreads, arr, 0⟩).activeThreads ≤
        maxThreads) ∧
    (0 ≤ (exec key sched (Driver.parallelMergeSort arr n maxThreads)).activeThreads ∧
      (exec key sched (Driver.parallelMergeSort arr n maxThreads)).activeThreads ≤ maxThreads) ∧
    (∀ c ∈ next key (exec key sched (Driver.parallelMergeSort arr n maxThreads)).prog
        (exec key sched (Driver.parallelMergeSort arr n maxThreads)).arr
        (exec key sched (Driver.parallelMergeSort arr n maxThreads)).activeThreads,
      c.activeThreads = (exec key sched (Driver.parallelMergeSort arr n maxThreads)).activeThreads ∨
      (c.activeThreads = (exec key sched (Driver.parallelMergeSort arr n maxThreads)).activeThreads + 1 ∧
        (exec key sched (Driver.parallelMergeSort arr n maxThreads)).activeThreads < maxThreads) ∨
      (c.activeThreads + 1 = (exec key sched (Driver.parallelMergeSort arr n maxThreads)).activeThreads ∧
        1 ≤ (exec key sched (Driver.parallelMergeSort arr n maxThreads)).activeThreads)) := by
  refine ⟨?_, ?_, ?_⟩
  · have hb := body_balanced maxThreads ((r - l).toNat + 1) l r depth
    obtain ⟨_, h2, h3⟩ := exec_budget key maxThreads sched
      ⟨Orchestrator.parallelMergeSort l r depth maxThreads, arr, 0⟩ hb.1
    simp only [Orchestrator.parallelMergeSort, hb.2] at h2 h3 ⊢
    exact ⟨by omega, h3 hcap⟩
  · obtain ⟨hb, ho, ha⟩ := driver_balanced arr n maxThreads
    obtain ⟨_, h2, h3⟩ := exec_budget key maxThreads sched _ hb
    rw [ho, ha] at h2
    rw [ha] at h3
    exact ⟨by omega, h3 hcap⟩
  · intro c hc
    obtain ⟨hb, ho, ha⟩ := driver_balanced arr n maxThreads
    obtain ⟨hb1, h2, _⟩ := exec_budget key maxThreads sched _ hb
    rw [ho, ha] at h2
    obtain ⟨_, hcase⟩ := next_budget key maxThreads _ _ _ c hb1 hc
    omega

/-- C8 on `[4, 3, 2, 1]` with `maxThreads = 1`, after six steps. -/
theorem budget_invariant_witness :
    (0 : Int) ≤ 1 ∧
    0 ≤ (exec id [0, 1, 0, 1, 0, 1] (Driver.parallelMergeSort [(4 : Int), 3, 2, 1] 4 1)).activeThreads ∧
    (exec id [0, 1, 0, 1, 0, 1] (Driver.parallelMergeSort [(4 : Int), 3, 2, 1] 4 1)).activeThreads ≤ 1 :=
  ⟨by decide,
    (budget_invariant id [(4 : Int), 3, 2, 1] 4 1 (by decide) 0 3 1 [0, 1, 0, 1, 0, 1]).2.1⟩

/-- C9 (balanced admissions and releases). In the program of the recursive
function the granted branch of every admission check performs exactly one
release more than the denied branch.  So, for every range, depth, `maxThreads`
and counter at the call: in every state of a run the counter is its value at the
call plus the admissions granted and not yet released; when the call has
returned the counter has its value at the call; the call does return when the
range is inside the array; and when the wrapper has returned the counter is 0. -/
theorem balanced_release (key : α → Int) (arr : List α) (l r depth maxThreads active : Int)
    (sched : List Nat) :
    Balanced maxThreads (Orchestrator.parallelMergeSort l r depth maxThreads) ∧
    (exec key sched ⟨Orchestrator.parallelMergeSort l r depth maxThreads, arr, active⟩).activeThreads =
      active +
        owed (exec key sched ⟨Orchestrator.parallelMergeSort l r depth maxThreads, arr, active⟩).prog ∧
    ((exec key sched ⟨Orchestrator.parallelMergeSort l r depth maxThreads, arr, active⟩).prog =
        Prog.done →
      (exec key sched ⟨Orchestrator.parallelMergeSort l r depth maxThreads, arr, active⟩).activeThreads =
        active) ∧
    (0 ≤ l → r < arr.length →
      cost (Orchestrator.parallelMergeSort l r depth maxThreads) ≤ sched.length →
      (exec key sched ⟨Orchestrator.parallelMergeSort l r depth maxThreads, arr, active⟩).prog =
        Prog.done) ∧
    ((exec key sched (Driver.parallelMergeSort arr arr.length maxThreads)).prog = Prog.done →
      (exec key sched (Driver.parallelMergeSort arr arr.length maxThreads)).activeThreads = 0) := by
  have hb := body_balanced maxThreads ((r - l).toNat + 1) l r depth
  obtain ⟨_, h2, _⟩ := exec_budget key maxThreads sched
    ⟨Orchestrator.parallelMergeSort l r depth maxThreads, arr, active⟩ hb.1
  have hact : (exec key sched
      ⟨Orchestrator.parallelMergeSort l r depth maxThreads, arr, active⟩).activeThreads =
      active + owed (exec key sched
        ⟨Orchestrator.parallelMergeSort l r depth maxThreads, arr, active⟩).prog := by
    simp only [Orchestrator.parallelMergeSort, hb.2] at h2 ⊢
    omega
  refine ⟨hb.1, hact, ?_, ?_, ?_⟩
  · intro hd
    rw [hact, hd]
    simp [owed]
  · intro hl hr hs
    by_cases hlr : l ≥ r
    · refine (congrArg Config.prog (exec_done key sched _ ?_)).trans ?_
      · rw [parallelMergeSort_eq, if_pos hlr]
      · rw [parallelMergeSort_eq, if_pos hlr]
    · exact (exec_returns key l.toNat (r + 1).toNat (by omega) sched
        ⟨Orchestrator.parallelMergeSort l r depth maxThreads, arr, active⟩
        (body_within key maxThreads _ l r depth hl) (by simp only []; omega) hs).1
  · intro hd
    obtain ⟨hb1, ho, ha⟩ := driver_balanced arr arr.length maxThreads
    obtain ⟨_, h3, _⟩ := exec_budget key maxThreads sched _ hb1
    rw [ho, ha, hd] at h3
    simp only [owed] at h3
    omega

/-- C9 on `[4, 3, 2, 1]`: the call on the whole array with depth 2,
`maxThreads = 2` and the counter at 5 returns with the counter at 5; with the
counter at 0 the admissions are granted (the counter is 2 after two steps) and
the call returns with the counter at 0. -/
theorem balanced_release_witness :
    (exec id (List.replicate 30 0)
      ⟨Orchestrator.parallelMergeSort 0 3 2 2, [(4 : Int), 3, 2, 1], 5⟩).prog = Prog.done ∧
    (exec id (List.replicate 30 0)
      ⟨Orchestrator.parallelMergeSort 0 3 2 2, [(4 : Int), 3, 2, 1], 5⟩).activeThreads = 5 ∧
    (exec id [0, 0]
      ⟨Orchestrator.parallelMergeSort 0 3 2 2, [(4 : Int), 3, 2, 1], 0⟩).activeThreads = 2 ∧
    (exec id (List.replicate 30 0)
      ⟨Orchestrator.parallelMergeSort 0 3 2 2, [(4 : Int), 3, 2, 1], 0⟩).prog = Prog.done ∧
    (exec id (List.replicate 30 0)
      ⟨Orchestrator.parallelMergeSort 0 3 2 2, [(4 : Int), 3, 2, 1], 0⟩).activeThreads = 0 :=
  ⟨(balanced_release id [(4 : Int), 3, 2, 1] 0 3 2 2 5 (List.replicate 30 0)).2.2.2.1
      (by decide) (by decide) (by decide),
    (balanced_release id [(4 : Int), 3, 2, 1] 0 3 2 2 5 (List.replicate 30 0)).2.2.1 (by decide),
    by decide,
    (balanced_release id [(4 : Int), 3, 2, 1] 0 3 2 2 0 (List.replicate 30 0)).2.2.2.1
      (by decide) (by decide) (by decide),
    (balanced_release id [(4 : Int), 3, 2, 1] 0 3 2 2 0 (List.replicate 30 0)).2.2.1 (by decide)⟩

/-- C10 (`merge` is the left-biased two-way merge). For indices
`0 ≤ l ≤ m < r < length`, whether or not the two runs are sorted,
`merge(arr, l, m, r)` returns, and the window `arr[l..r]` is then the merge of
section 4.1 of the specification of `arr[l..m]` and `arr[m+1..r]` (on a tie the
left element first); so it is a permutation of what it was. -/
theorem merge_left_biased (key : α → Int) (arr : List α) (l m r : Int) (h0 : 0 ≤ l) (h1 : l ≤ m)
    (h2 : m < r) (h3 : r < arr.length) :
    ∃ out, merge key arr l m r = some out ∧
      window out l r = specMerge key (window arr l m) (window arr (m + 1) r) ∧
      (window out l r).Perm (window arr l r) := by
  refine ⟨_, merge_eq key arr l m r h0 h1 h2 h3, window_merge key arr l m r h0 h1 h2 h3, ?_⟩
  rw [window_merge key arr l m r h0 h1 h2 h3, window_split arr l m r h0 h1 h2]
  exact specMerge_perm key _ _

/-- C10 on tagged elements with a tie, the runs not sorted: of the two elements
of key 2 the left one, `(2, 0)`, is written first. -/
theorem merge_left_biased_witness :
    ∃ out, merge Prod.fst [((2 : Int), (0 : Nat)), (1, 1), (2, 2), (0, 3)] 0 1 3 = some out ∧
      window out 0 3 =
        specMerge Prod.fst (window [((2 : Int), (0 : Nat)), (1, 1), (2, 2), (0, 3)] 0 1)
          (window [((2 : Int), (0 : Nat)), (1, 1), (2, 2), (0, 3)] (1 + 1) 3) ∧
      (window out 0 3).Perm (window [((2 : Int), (0 : Nat)), (1, 1), (2, 2), (0, 3)] 0 3) :=
  merge_left_biased Prod.fst [((2 : Int), (0 : Nat)), (1, 1), (2, 2), (0, 3)] 0 1 3 (by decide)
    (by decide) (by decide) (by decide)

/-! ## What stays outside the window -/

theorem getElem?_splice (pre mid1 mid2 post : List α) (h : mid1.length = mid2.length) (i : Nat)
    (hi : i < pre.length ∨ pre.length + mid1.length ≤ i) :
    (pre ++ mid1 ++ post)[i]? = (pre ++ mid2 ++ post)[i]? := by
  rcases hi with hi | hi
  · rw [List.append_assoc, List.append_assoc, List.getElem?_append_left hi,
      List.getElem?_append_left hi]
  · rw [List.getElem?_append_right (by rw [List.length_append]; omega),
      List.getElem?_append_right (by rw [List.length_append]; omega)]
    simp only [List.length_append, h]

/-- A function that rewrites the window `lo ≤ i < hi` returns on every array that
contains the window, keeps the length and keeps the elements outside. -/
theorem actsOn_frame {lo hi : Nat} {f : List α → Option (List α)} (hf : ActsOn lo hi f)
    (hle : lo ≤ hi) (a : List α) (ha : hi ≤ a.length) :
    ∃ out, f a = some out ∧ out.length = a.length ∧
      ∀ i : Nat, i < lo ∨ hi ≤ i → out[i]? = a[i]? := by
  obtain ⟨g, hlen, hg⟩ := hf
  have e : a = a.take lo ++ (a.drop lo).take (hi - lo) ++ (a.drop lo).drop (hi - lo) := by
    rw [List.append_assoc, List.take_append_drop, List.take_append_drop]
  have h1 : (a.take lo).length = lo := by rw [List.length_take]; omega
  have h2 : (a.take lo).length + ((a.drop lo).take (hi - lo)).length = hi := by
    simp only [List.length_take, List.length_drop]; omega
  refine ⟨a.take lo ++ g ((a.drop lo).take (hi - lo)) ++ (a.drop lo).drop (hi - lo), ?_, ?_, ?_⟩
  · conv_lhs => rw [e]
    exact hg _ _ _ h1 h2
  · simp only [List.length_append, hlen, List.length_take, List.length_drop]
    omega
  · intro i hi
    conv_rhs => rw [e]
    exact getElem?_splice _ _ _ _ (hlen _) i (by rw [hlen]; omega)

theorem merge_frame (key : α → Int) (arr : List α) (l m r : Int) (h0 : 0 ≤ l) (h1 : l ≤ m)
    (h2 : m < r) (h3 : r < arr.length) :
    ∃ out, merge key arr l m r = some out ∧ out.length = arr.length ∧
      ∀ i : Nat, (i : Int) < l ∨ r < (i : Int) → out[i]? = arr[i]? := by
  have hact : ActsOn l.toNat (r + 1).toNat (fun a => merge key a l m r) :=
    actsOn_merge key (by omega) h1 h2 (by omega)
  obtain ⟨out, ho, hl, hf⟩ := actsOn_frame hact (by omega) arr (by omega)
  exact ⟨out, ho, hl, fun i hi => hf i (by omega)⟩

/-- A step changes the array inside the window of the program only. -/
theorem next_frame (key : α → Int) (arr : List α) (act : Int) : ∀ (p : Prog) (lo hi : Nat)
    (c : Config α), Within key lo hi p → lo ≤ hi → hi ≤ arr.length → c ∈ next key p arr act →
    ∀ i : Nat, i < lo ∨ hi ≤ i → c.arr[i]? = arr[i]? := by
  intro p
  induction p with
  | done => intro lo hi c _ _ _ hc; simp [next] at hc
  | release =>
    intro lo hi c _ _ _ hc
    simp only [next, List.mem_singleton] at hc
    subst hc
    exact fun _ _ => rfl
  | mergeCall l m r =>
    intro lo hi c h hle harr hc
    obtain ⟨out, hout, _, hf⟩ := actsOn_frame (den_actsOn key (Prog.mergeCall l m r) lo hi h hle) hle
      arr harr
    rw [den] at hout
    simp only [next, hout, List.mem_singleton] at hc
    subst hc
    exact hf
  | admission cap g d _ _ =>
    intro lo hi c _ _ _ hc
    simp only [next] at hc
    split at hc <;>
    · simp only [List.mem_singleton] at hc
      subst hc
      exact fun _ _ => rfl
  | seq a b iha _ =>
    intro lo hi c h hle harr hc
    simp only [Within] at h
    simp only [next] at hc
    split at hc
    · simp only [List.mem_singleton] at hc
      subst hc
      exact fun _ _ => rfl
    · obtain ⟨c0, hc0, rfl⟩ := List.mem_map.mp hc
      exact iha lo hi c0 h.1 hle harr hc0
  | async a b iha ihb =>
    intro lo hi c h hle harr hc
    simp only [Within] at h
    obtain ⟨mid, hm1, hm2, ha, hb⟩ := h
    simp only [next] at hc
    split at hc
    · simp only [List.mem_singleton] at hc
      subst hc
      exact fun _ _ => rfl
    · rcases List.mem_append.mp hc with hc | hc
      · obtain ⟨c0, hc0, rfl⟩ := List.mem_map.mp hc
        exact fun i hout => iha lo mid c0 ha hm1 (by omega) hc0 i (by omega)
      · obtain ⟨c0, hc0, rfl⟩ := List.mem_map.mp hc
        exact fun i hout => ihb mid hi c0 hb hm2 harr hc0 i (by omega)

/-- Along a run the array changes inside the window of the program only. -/
theorem exec_frame (key : α → Int) (lo hi : Nat) (hle : lo ≤ hi) : ∀ (sched : List Nat)
    (c : Config α), Within key lo hi c.prog → hi ≤ c.arr.length →
    ∀ i : Nat, i < lo ∨ hi ≤ i → (exec key sched c).arr[i]? = c.arr[i]? := by
  intro sched
  induction sched with
  | nil => intro c _ _ i _; rfl
  | cons x xs ih =>
    intro c h harr i hout
    rw [exec_cons]
    rcases pick_eq_or_mem key c x with ⟨_, hp⟩ | hp
    · rw [hp]; exact ih c h harr i hout
    · obtain ⟨hw, hl, _⟩ := next_array key c.arr c.activeThreads c.prog lo hi _ h hle harr hp
      rw [ih _ hw (by omega) i hout]
      exact next_frame key c.arr c.activeThreads c.prog lo hi _ h hle harr hp i hout

/-- C11 (frame of `merge`). For indices `0 ≤ l ≤ m < r < length`,
`merge(arr, l, m, r)` returns, the array keeps its length and every element at an
index outside `l..r` is the one it was. -/
theorem merge_keeps_outside (key : α → Int) (arr : List α) (l m r : Int) (h0 : 0 ≤ l)
    (h1 : l ≤ m) (h2 : m < r) (h3 : r < arr.length) :
    ∃ out, merge key arr l m r = some out ∧ out.length = arr.length ∧
      ∀ i : Nat, (i : Int) < l ∨ r < (i : Int) → out[i]? = arr[i]? := by
  have hact : ActsOn l.toNat (r + 1).toNat (fun a => merge key a l m r) :=
    actsOn_merge key (by omega) h1 h2 (by omega)
  obtain ⟨out, ho, hl, hf⟩ := actsOn_frame hact (by omega) arr (by omega)
  exact ⟨out, ho, hl, fun i hi => hf i (by omega)⟩

/-- C11 on `[9, 3, 5, 2, 4, 0]` with the window `arr[1..4]`: the elements 9 and 0
stay. -/
theorem merge_keeps_outside_witness :
    merge id [9, 3, 5, 2, 4, 0] 1 2 4 = some [9, 2, 3, 4, 5, 0] ∧
    ∃ out, merge id [9, 3, 5, 2, 4, 0] 1 2 4 = some out ∧
      out.length = ([9, 3, 5, 2, 4, 0] : List Int).length ∧
      ∀ i : Nat, (i : Int) < 1 ∨ 4 < (i : Int) → out[i]? = ([9, 3, 5, 2, 4, 0] : List Int)[i]? :=
  ⟨by decide,
    merge_keeps_outside id [9, 3, 5, 2, 4, 0] 1 2 4 (by decide) (by decide) (by decide) (by decide)⟩

/-! ## The sequential sort -/

/-- Run sequentially, the program of the recursive function is the plain
sequential merge sort, whatever the depth and `maxThreads`. -/
theorem den_body_eq (key : α → Int) (maxThreads : Int) : ∀ (fuel : Nat) (l r depth : Int)
    (arr : List α),
    den key (Orchestrator.body maxThreads fuel l r depth) arr = sequentialSort key fuel arr l r := by
  intro fuel
  induction fuel with
  | zero => intro l r depth arr; rfl
  | succ fuel ih =>
    intro l r depth arr
    rw [Orchestrator.body, sequentialSort]
    split
    · rfl
    · simp only []
      have hseq : den key (Prog.seq (Orchestrator.body maxThreads fuel l (l + (r - l) / 2) (depth - 1))
          (Orchestrator.body maxThreads fuel (l + (r - l) / 2 + 1) r (depth - 1))) arr =
          (sequentialSort key fuel arr l (l + (r - l) / 2)).bind fun arr1 =>
            sequentialSort key fuel arr1 (l + (r - l) / 2 + 1) r := by
        rw [den, ih]
        congr 1
        funext arr1
        rw [ih]
      rw [den]
      split
      · rw [den, hseq]
        cases sequentialSort key fuel arr l (l + (r - l) / 2) with
        | none => rfl
        | some arr1 =>
          cases h2 : sequentialSort key fuel arr1 (l + (r - l) / 2 + 1) r with
          | none => simp [h2]
          | some arr2 => simp [h2, den]
      · rw [hseq]
        cases sequentialSort key fuel arr l (l + (r - l) / 2) with
        | none => rfl
        | some arr1 =>
          cases h2 : sequentialSort key fuel arr1 (l + (r - l) / 2 + 1) r with
          | none => simp [h2]
          | some arr2 => simp [h2, den]

/-- C12 (the result does not depend on the threads). For a range inside the
array and every depth (positive, zero or negative), `maxThreads` and value of the
counter, under every interleaving the recursive function returns, and the array
it leaves is the array of plain sequential top-down merge sort on `arr[l..r]`. -/
theorem result_is_sequential (key : α → Int) (arr : List α) (l r depth maxThreads active : Int)
    (h0 : 0 ≤ l) (h1 : r < arr.length) (sched : List Nat) :
    (cost (Orchestrator.parallelMergeSort l r depth maxThreads) ≤ sched.length →
      (exec key sched ⟨Orchestrator.parallelMergeSort l r depth maxThreads, arr, active⟩).prog =
        Prog.done) ∧
    ((exec key sched ⟨Orchestrator.parallelMergeSort l r depth maxThreads, arr, active⟩).prog =
        Prog.done →
      sequentialMergeSort key arr l r =
        some (exec key sched ⟨Orchestrator.parallelMergeSort l r depth maxThreads, arr, active⟩).arr) := by
  have hden : den key (Orchestrator.parallelMergeSort l r depth maxThreads) arr =
      sequentialMergeSort key arr l r := den_body_eq key maxThreads _ l r depth arr
  by_cases hlr : l ≥ r
  · have hp : Orchestrator.parallelMergeSort l r depth maxThreads = Prog.done := by
      rw [parallelMergeSort_eq, if_pos hlr]
    rw [← hden, hp, exec_done key sched _ rfl]
    exact ⟨fun _ => rfl, fun _ => rfl⟩
  · have hw := body_within key maxThreads ((r - l).toNat + 1) l r depth h0
    obtain ⟨_, _, h3, h4⟩ := exec_array key l.toNat (r + 1).toNat (by omega) sched
      ⟨Orchestrator.parallelMergeSort l r depth maxThreads, arr, active⟩ hw (by simp only []; omega)
    constructor
    · intro hs
      rcases h4 with h4 | h4
      · exact h4
      · exact cost_eq_zero _ (by simp only [] at h4; omega)
    · intro hd
      rw [hd] at h3
      rw [← hden]
      exact h3.symm

/-- C12 on `[4, 3, 2, 1]`: the call on the whole array with depth 2 and
`maxThreads = 2`, on a run that alternates between the threads, leaves the array
of the sequential sort, with the counter at 5 (every admission is denied) and
with the counter at 0 (admissions are granted, the halves are sorted by two
threads). -/
theorem result_is_sequential_witness :
    sequentialMergeSort id [(4 : Int), 3, 2, 1] 0 3 = some [1, 2, 3, 4] ∧
    sequentialMergeSort id [(4 : Int), 3, 2, 1] 0 3 =
      some (exec id [1, 0, 1, 0, 1, 0, 1, 0, 1, 0, 1, 0, 1, 0, 1, 0, 1, 0, 1, 0, 1, 0, 1, 0, 1, 0]
        ⟨Orchestrator.parallelMergeSort 0 3 2 2, [(4 : Int), 3, 2, 1], 5⟩).arr ∧
    (exec id [1, 0] ⟨Orchestrator.parallelMergeSort 0 3 2 2, [(4 : Int), 3, 2, 1], 0⟩).activeThreads =
      2 ∧
    sequentialMergeSort id [(4 : Int), 3, 2, 1] 0 3 =
      some (exec id [1, 0, 1, 0, 1, 0, 1, 0, 1, 0, 1, 0, 1, 0, 1, 0, 1, 0, 1, 0, 1, 0, 1, 0, 1, 0]
        ⟨Orchestrator.parallelMergeSort 0 3 2 2, [(4 : Int), 3, 2, 1], 0⟩).arr :=
  ⟨by decide,
    (result_is_sequential id [(4 : Int), 3, 2, 1] 0 3 2 2 5 (by decide) (by decide)
      [1, 0, 1, 0, 1, 0, 1, 0, 1, 0, 1, 0, 1, 0, 1, 0, 1, 0, 1, 0, 1, 0, 1, 0, 1, 0]).2
      (by decide),
    by decide,
    (result_is_sequential id [(4 : Int), 3, 2, 1] 0 3 2 2 0 (by decide) (by decide)
      [1, 0, 1, 0, 1, 0, 1, 0, 1, 0, 1, 0, 1, 0, 1, 0, 1, 0, 1, 0, 1, 0, 1, 0, 1, 0]).2
      (by decide)⟩

/-! ## Counting the admission checks of a run -/

theorem nextLabelled_snd (key : α → Int) (arr : List α) (act : Int) : ∀ p : Prog,
    (nextLabelled key p arr act).map Prod.snd = next key p arr act := by
  intro p
  induction p with
  | done => rfl
  | release => rfl
  | mergeCall l m r =>
    simp only [nextLabelled, next]
    cases merge key arr l m r <;> rfl
  | admission cap g d _ _ =>
    simp only [nextLabelled, next]
    split <;> rfl
  | seq a b iha _ =>
    simp only [nextLabelled, next]
    split
    · rfl
    · rw [← iha, List.map_map, List.map_map]
      rfl
  | async a b iha ihb =>
    simp only [nextLabelled, next]
    split
    · rfl
    · rw [← iha, ← ihb, List.map_append, List.map_map, List.map_map, List.map_map, List.map_map]
      rfl

theorem pickLabelled_snd (key : α → Int) (c : Config α) (choice : Nat) :
    (pickLabelled key c choice).2 = pick key c choice := by
  unfold pickLabelled pick
  simp only []
  rw [← nextLabelled_snd, List.length_map]
  generalize nextLabelled key c.prog c.arr c.activeThreads = cs
  generalize choice % cs.length = i
  induction cs generalizing i with
  | nil => rfl
  | cons x xs ih =>
    cases i with
    | zero => rfl
    | succ i => exact ih i

theorem pickLabelled_eq_or_mem (key : α → Int) (c : Config α) (choice : Nat) :
    pickLabelled key c choice = (false, c) ∨
      pickLabelled key c choice ∈ nextLabelled key c.prog c.arr c.activeThreads := by
  unfold pickLabelled
  simp only []
  cases h : nextLabelled key c.prog c.arr c.activeThreads with
  | nil => left; rfl
  | cons d ds =>
    right
    have hlt : choice % (d :: ds).length < (d :: ds).length := Nat.mod_lt _ (by simp)
    rw [List.getD_eq_getElem _ _ hlt]
    exact List.getElem_mem hlt

/-- A step that is an admission check leaves one check less to perform; no step
leaves more. -/
theorem nextLabelled_checks (key : α → Int) (arr : List α) (act : Int) : ∀ (p : Prog)
    (x : Bool × Config α), x ∈ nextLabelled key p arr act →
    admissionChecks x.2.prog + (if x.1 then 1 else 0) ≤ admissionChecks p ∧
      budgetOps x.2.prog ≤ budgetOps p := by
  intro p
  induction p with
  | done => intro x hx; simp [nextLabelled] at hx
  | release =>
    intro x hx
    simp only [nextLabelled, List.mem_singleton] at hx
    subst hx
    simp [admissionChecks, budgetOps]
  | mergeCall l m r =>
    intro x hx
    simp only [nextLabelled] at hx
    split at hx
    · simp only [List.mem_singleton] at hx
      subst hx
      simp [admissionChecks, budgetOps]
    · simp at hx
  | admission cap g d _ _ =>
    intro x hx
    simp only [nextLabelled] at hx
    split at hx <;>
    · simp only [List.mem_singleton] at hx
      subst hx
      simp only [admissionChecks, budgetOps, if_true]
      omega
  | seq a b iha _ =>
    intro x hx
    simp only [nextLabelled] at hx
    split at hx
    · simp only [List.mem_singleton] at hx
      subst hx
      simp only [admissionChecks, budgetOps]
      simp
    · obtain ⟨x0, hx0, rfl⟩ := List.mem_map.mp hx
      have := iha x0 hx0
      simp only [admissionChecks, budgetOps]
      omega
  | async a b iha ihb =>
    intro x hx
    simp only [nextLabelled] at hx
    split at hx
    · simp only [List.mem_singleton] at hx
      subst hx
      simp [admissionChecks, budgetOps]
    · rcases List.mem_append.mp hx with hx | hx
      · obtain ⟨x0, hx0, rfl⟩ := List.mem_map.mp hx
        have := iha x0 hx0
        simp only [admissionChecks, budgetOps]
        omega
      · obtain ⟨x0, hx0, rfl⟩ := List.mem_map.mp hx
        have := ihb x0 hx0
        simp only [admissionChecks, budgetOps]
        omega

/-- The checks performed on a run and the checks left to perform are together
at most the checks of the program. -/
theorem checksPerformed_le (key : α → Int) : ∀ (sched : List Nat) (c : Config α),
    checksPerformed key sched c + admissionChecks (exec key sched c).prog ≤ admissionChecks c.prog ∧
      budgetOps (exec key sched c).prog ≤ budgetOps c.prog := by
  intro sched
  induction sched with
  | nil => intro c; simp [checksPerformed, exec]
  | cons x xs ih =>
    intro c
    rw [exec_cons, checksPerformed, ← pickLabelled_snd]
    have h := ih (pickLabelled key c x).2
    rcases pickLabelled_eq_or_mem key c x with hp | hp
    · rw [hp] at h ⊢
      simp only [] at h ⊢
      simp only [Bool.false_eq_true, if_false]
      omega
    · have := nextLabelled_checks key c.arr c.activeThreads c.prog _ hp
      omega

theorem owed_le_budgetOps : ∀ p : Prog, owed p ≤ budgetOps p := by
  intro p
  induction p with
  | done => simp [owed]
  | release => simp [owed, budgetOps]
  | mergeCall l m r => simp [owed]
  | admission cap g d _ ihd => simp only [owed, budgetOps]; omega
  | seq a b iha ihb => simp only [owed, budgetOps]; omega
  | async a b iha ihb => simp only [owed, budgetOps]; omega

theorem admissionChecks_le_budgetOps : ∀ p : Prog, admissionChecks p ≤ budgetOps p := by
  intro p
  induction p with
  | done => simp [admissionChecks]
  | release => simp [admissionChecks]
  | mergeCall l m r => simp [admissionChecks]
  | admission cap g d ihg ihd => simp only [admissionChecks, budgetOps]; omega
  | seq a b iha ihb => simp only [admissionChecks, budgetOps]; omega
  | async a b iha ihb => simp only [admissionChecks, budgetOps]; omega

theorem budgetOps_body (maxThreads : Int) : ∀ (fuel : Nat) (l r depth : Int), depth ≤ 0 →
    budgetOps (Orchestrator.body maxThreads fuel l r depth) = 0 := by
  intro fuel
  induction fuel with
  | zero => intro l r depth _; rfl
  | succ fuel ih =>
    intro l r depth hd
    rw [Orchestrator.body]
    split
    · rfl
    · simp only []
      rw [if_neg (by omega)]
      simp only [budgetOps, ih _ _ (depth - 1) (by omega)]

theorem admissionChecks_body_le (maxThreads : Int) : ∀ (fuel : Nat) (l r depth : Int),
    admissionChecks (Orchestrator.body maxThreads fuel l r depth) ≤ 2 ^ depth.toNat - 1 := by
  intro fuel
  induction fuel with
  | zero => intro l r depth; simp [Orchestrator.body, admissionChecks]
  | succ fuel ih =>
    intro l r depth
    rw [Orchestrator.body]
    split
    · simp [admissionChecks]
    · simp only []
      have hL := ih l (l + (r - l) / 2) (depth - 1)
      have hR := ih (l + (r - l) / 2 + 1) r (depth - 1)
      split
      · rename_i hd
        have e : depth.toNat = (depth - 1).toNat + 1 := by omega
        have hpos : 1 ≤ 2 ^ (depth - 1).toNat := Nat.one_le_two_pow
        rw [e, pow_succ]
        simp only [admissionChecks]
        omega
      · rename_i hd
        have hL0 := admissionChecks_body maxThreads fuel l (l + (r - l) / 2) (depth - 1) (by omega)
        have hR0 := admissionChecks_body maxThreads fuel (l + (r - l) / 2 + 1) r (depth - 1)
          (by omega)
        simp only [admissionChecks, hL0, hR0]
        omega

/-! ## The frame of the recursive function -/

theorem orchestrator_exec_frame (key : α → Int) (arr : List α) (l r depth maxThreads active : Int)
    (h0 : 0 ≤ l) (h1 : r < arr.length) (sched : List Nat) :
    (exec key sched ⟨Orchestrator.parallelMergeSort l r depth maxThreads, arr, active⟩).arr.length =
      arr.length ∧
    ∀ i : Nat, (i : Int) < l ∨ r < (i : Int) →
      (exec key sched ⟨Orchestrator.parallelMergeSort l r depth maxThreads, arr, active⟩).arr[i]? =
        arr[i]? := by
  by_cases hlr : l ≥ r
  · have hp : Orchestrator.parallelMergeSort l r depth maxThreads = Prog.done := by
      rw [parallelMergeSort_eq, if_pos hlr]
    rw [hp, exec_done key sched _ rfl]
    exact ⟨rfl, fun _ _ => rfl⟩
  · have hw := body_within key maxThreads ((r - l).toNat + 1) l r depth h0
    obtain ⟨_, h2, _, _⟩ := exec_array key l.toNat (r + 1).toNat (by omega) sched
      ⟨Orchestrator.parallelMergeSort l r depth maxThreads, arr, active⟩ hw (by simp only []; omega)
    refine ⟨h2, fun i hi => ?_⟩
    exact exec_frame key l.toNat (r + 1).toNat (by omega) sched
      ⟨Orchestrator.parallelMergeSort l r depth maxThreads, arr, active⟩ hw (by simp only []; omega)
      i (by omega)

theorem sequential_halves_comm (key : α → Int) (arr : List α) (l r : Int) (h0 : 0 ≤ l)
    (hlr : l < r) (h1 : r < arr.length) :
    ((sequentialMergeSort key arr l (l + (r - l) / 2)).bind fun arr1 =>
        sequentialMergeSort key arr1 (l + (r - l) / 2 + 1) r) =
      (sequentialMergeSort key arr (l + (r - l) / 2 + 1) r).bind fun arr1 =>
        sequentialMergeSort key arr1 l (l + (r - l) / 2) := by
  have hL := den_actsOn key _ _ _
    (body_within key 0 ((l + (r - l) / 2 - l).toNat + 1) l (l + (r - l) / 2) 0 h0) (by omega)
  have hR := den_actsOn key _ _ _
    (body_within key 0 ((r - (l + (r - l) / 2 + 1)).toNat + 1) (l + (r - l) / 2 + 1) r 0 (by omega))
    (by omega)
  have hcomm := actsOn_comm hL hR (by omega) (by omega) arr (by omega)
  unfold sequentialMergeSort
  simp only [den_body_eq] at hcomm
  exact hcomm

/-- C14 (frame of the recursive function, disjoint halves). For a range
`0 ≤ l ≤ r < length`, every depth, `maxThreads` and counter: in every state of a
run of the call on `[l, r]` the array has its length and every element at an
index outside `l..r` is the one it was.  So, for `l < r`, of the task on
`[l, m]` and the task on `[m+1, r]` no two runs change the same index, and
sorting the two halves in either order leaves the same array. -/
theorem orchestrator_keeps_outside (key : α → Int) (arr : List α)
    (l r depth maxThreads active : Int) (h0 : 0 ≤ l) (_hlr : l ≤ r) (h1 : r < arr.length)
    (sched : List Nat) :
    (exec key sched ⟨Orchestrator.parallelMergeSort l r depth maxThreads, arr, active⟩).arr.length =
      arr.length ∧
    (∀ i : Nat, (i : Int) < l ∨ r < (i : Int) →
      (exec key sched ⟨Orchestrator.parallelMergeSort l r depth maxThreads, arr, active⟩).arr[i]? =
        arr[i]?) ∧
    (l < r →
      (∀ (sched1 sched2 : List Nat) (i : Nat),
        (exec key sched1
          ⟨Orchestrator.parallelMergeSort l (l + (r - l) / 2) (depth - 1) maxThreads, arr, active⟩).arr[i]? =
            arr[i]? ∨
        (exec key sched2
          ⟨Orchestrator.parallelMergeSort (l + (r - l) / 2 + 1) r (depth - 1) maxThreads, arr,
            active⟩).arr[i]? = arr[i]?) ∧
      ((sequentialMergeSort key arr l (l + (r - l) / 2)).bind fun arr1 =>
          sequentialMergeSort key arr1 (l + (r - l) / 2 + 1) r) =
        (sequentialMergeSort key arr (l + (r - l) / 2 + 1) r).bind fun arr1 =>
          sequentialMergeSort key arr1 l (l + (r - l) / 2)) := by
  obtain ⟨hlen, hframe⟩ := orchestrator_exec_frame key arr l r depth maxThreads active h0 h1 sched
  refine ⟨hlen, hframe, fun hlt => ⟨fun sched1 sched2 i => ?_, ?_⟩⟩
  · by_cases hi : (i : Int) ≤ l + (r - l) / 2
    · right
      exact (orchestrator_exec_frame key arr (l + (r - l) / 2 + 1) r (depth - 1) maxThreads active
        (by omega) h1 sched2).2 i (by omega)
    · left
      exact (orchestrator_exec_frame key arr l (l + (r - l) / 2) (depth - 1) maxThreads active
        h0 (by omega) sched1).2 i (by omega)
  · exact sequential_halves_comm key arr l r h0 hlt h1

/-- C14 on `[9, 4, 3, 2, 1, 0]` with the range `[1, 4]`: after every step of the
run that moves the first thread the elements 9 and 0 are in place. -/
theorem orchestrator_keeps_outside_witness :
    (exec id (List.replicate 7 0)
      ⟨Orchestrator.parallelMergeSort 1 4 2 2, [(9 : Int), 4, 3, 2, 1, 0], 0⟩).arr =
      [9, 3, 4, 2, 1, 0] ∧
    ∀ i : Nat, (i : Int) < 1 ∨ 4 < (i : Int) →
      (exec id (List.replicate 7 0)
        ⟨Orchestrator.parallelMergeSort 1 4 2 2, [(9 : Int), 4, 3, 2, 1, 0], 0⟩).arr[i]? =
        ([(9 : Int), 4, 3, 2, 1, 0])[i]? :=
  ⟨by decide,
    (orchestrator_keeps_outside id [(9 : Int), 4, 3, 2, 1, 0] 1 4 2 2 0 (by decide) (by decide)
      (by decide) (List.replicate 7 0)).2.1⟩

/-! ## The split, the depth and the end of the recursion -/

theorem floorLog2_eq : ∀ (fuel x : Nat), x ≤ fuel → floorLog2 fuel x = Nat.log 2 x := by
  intro fuel
  induction fuel with
  | zero =>
    intro x hx
    have : x = 0 := by omega
    subst this
    simp [floorLog2]
  | succ fuel ih =>
    intro x hx
    rw [floorLog2]
    split
    · rename_i h2
      rw [ih (x / 2) (by omega), Nat.log_of_one_lt_of_le (by decide) h2]
    · rename_i h2
      rw [Nat.log_of_lt (by omega)]

theorem log2_eq (x : Int) : log2 x = (Nat.log 2 x.toNat : Nat) := by
  unfold log2
  rw [floorLog2_eq _ _ (le_refl _)]

/-- A run takes at most `cost` steps: after that no step is possible. -/
theorem exec_stops (key : α → Int) : ∀ (sched : List Nat) (c : Config α),
    next key (exec key sched c).prog (exec key sched c).arr (exec key sched c).activeThreads = [] ∨
      cost (exec key sched c).prog + sched.length ≤ cost c.prog := by
  intro sched
  induction sched with
  | nil => intro c; exact Or.inr (le_refl _)
  | cons x xs ih =>
    intro c
    rw [exec_cons]
    rcases pick_eq_or_mem key c x with ⟨hnil, hp⟩ | hp
    · rw [hp]
      left
      have hstay : ∀ (ys : List Nat), exec key ys c = c := by
        intro ys
        induction ys with
        | nil => rfl
        | cons y ys ihy =>
          rw [exec_cons]
          rcases pick_eq_or_mem key c y with ⟨_, hq⟩ | hq
          · rw [hq]; exact ihy
          · rw [hnil] at hq; simp at hq
      rw [hstay xs]
      exact hnil
    · have hc := next_cost key c.arr c.activeThreads c.prog _ hp
      rcases ih (pick key c x) with h | h
      · exact Or.inl h
      · right
        simp only [List.length_cons]
        omega

/-- C16 (the midpoint does not overflow). For 32-bit `int`s `0 ≤ l ≤ r ≤ 2^31 - 1`
the values `r - l`, `(r - l) / 2` and `l + (r - l) / 2` are in the range of `int`,
so the 32-bit computation gives `l + (r - l) / 2`, which is the floor of
`(l + r) / 2`; for `l = 1`, `r = 2^31 - 1` the alternative `(l + r) / 2` computed
with wrap-around is not that floor. -/
theorem midpoint_no_overflow (l r : Int) (h0 : 0 ≤ l) (h1 : l ≤ r) (h2 : r ≤ 2147483647) :
    (-2147483648 ≤ r - l ∧ r - l ≤ 2147483647) ∧
    (-2147483648 ≤ half (r - l) ∧ half (r - l) ≤ 2147483647) ∧
    (-2147483648 ≤ l + half (r - l) ∧ l + half (r - l) ≤ 2147483647) ∧
    midpoint32 l r = midpoint l r ∧
    midpoint32 l r = (l + r) / 2 ∧
    ((0 : Int) ≤ 1 ∧ (1 : Int) ≤ 2147483647 ∧
      naiveMidpoint32 1 2147483647 ≠ (1 + 2147483647) / 2) := by
  have hh : half (r - l) = (r - l) / 2 := by
    unfold half; rw [if_pos (by omega)]
  have hw : wrap32 (r - l) = r - l := by
    unfold wrap32; omega
  refine ⟨by omega, by rw [hh]; omega, by rw [hh]; omega, ?_, ?_, by decide⟩
  · unfold midpoint32 midpoint
    rw [hw, hh]
    unfold wrap32
    omega
  · unfold midpoint32
    rw [hw, hh]
    unfold wrap32
    omega

/-- C16 on `l = 2^30`, `r = 2^31 - 1`, and the wrapped alternative on
`l = 1`, `r = 2^31 - 1`. -/
theorem midpoint_no_overflow_witness :
    midpoint32 1073741824 2147483647 = 1610612735 ∧
    midpoint32 1073741824 2147483647 = (1073741824 + 2147483647) / 2 ∧
    naiveMidpoint32 1 2147483647 = -1073741824 :=
  ⟨by decide,
    (midpoint_no_overflow 1073741824 2147483647 (by decide) (by decide) (by decide)).2.2.2.2.1,
    by decide⟩

/-- C18 (the initial depth). For `n ≥ 2` and `maxThreads ≥ 1` the wrapper starts
the recursive function on `[0, n - 1]` with the counter at 0 and the depth
`min(⌊log₂ maxThreads⌋ + 1, ⌊log₂ n⌋)`, which is at least 1, so not negative,
also for `maxThreads = 1`. -/
theorem initial_depth (arr : List α) (n maxThreads : Int) (hn : 2 ≤ n) (hcap : 1 ≤ maxThreads) :
    Driver.parallelMergeSort arr n maxThreads =
      ⟨Orchestrator.parallelMergeSort 0 (n - 1)
        (min ((Nat.log 2 maxThreads.toNat : Nat) + 1) (Nat.log 2 n.toNat : Nat)) maxThreads, arr, 0⟩ ∧
    (0 : Int) ≤ min ((Nat.log 2 maxThreads.toNat : Nat) + 1) (Nat.log 2 n.toNat : Nat) ∧
    (1 : Int) ≤ min ((Nat.log 2 maxThreads.toNat : Nat) + 1) (Nat.log 2 n.toNat : Nat) ∧
    (maxThreads = 1 →
      (min (((Nat.log 2 maxThreads.toNat : Nat) : Int) + 1) (Nat.log 2 n.toNat : Nat)) = 1) := by
  have hlogn : 1 ≤ Nat.log 2 n.toNat := Nat.log_pos (by decide) (by omega)
  refine ⟨?_, by omega, by omega, ?_⟩
  · unfold Driver.parallelMergeSort
    rw [if_neg (by omega), log2_eq, log2_eq]
  · intro h1
    subst h1
    have : Nat.log 2 (1 : Int).toNat = 0 := Nat.log_of_lt (by decide)
    rw [this]
    omega

/-- C18 on `n = 13` and `maxThreads = 4`, the call of `main`: the depth is
`min(2 + 1, 3) = 3`. -/
theorem initial_depth_witness :
    Driver.parallelMergeSort [(12 : Int), 11, 13, 5, 6, 7, 1, 8, 9, 10, 4, 3, 2] 13 4 =
      ⟨Orchestrator.parallelMergeSort 0 (13 - 1)
        (min ((Nat.log 2 (4 : Int).toNat : Nat) + 1) (Nat.log 2 (13 : Int).toNat : Nat)) 4,
        [(12 : Int), 11, 13, 5, 6, 7, 1, 8, 9, 10, 4, 3, 2], 0⟩ ∧
    min (log2 4 + 1) (log2 13) = 3 :=
  ⟨(initial_depth [(12 : Int), 11, 13, 5, 6, 7, 1, 8, 9, 10, 4, 3, 2] 13 4 (by decide)
      (by decide)).1,
    by decide⟩

/-- C19, the claim as stated fails: the call on `[3, 1, 2]` with `l = 5`, `r = 2`
(so `l > r + 1`, and both indices outside the array for `l`) has returned at
once, without a failure, and the array and the counter are as they were. -/
theorem invalid_range_returns :
    Orchestrator.parallelMergeSort 5 2 1 4 = Prog.done ∧
    (exec id [0, 1, 2] ⟨Orchestrator.parallelMergeSort 5 2 1 4, [(3 : Int), 1, 2], 0⟩).prog =
      Prog.done ∧
    (exec id [0, 1, 2] ⟨Orchestrator.parallelMergeSort 5 2 1 4, [(3 : Int), 1, 2], 0⟩).arr =
      [3, 1, 2] ∧
    (exec id [0, 1, 2]
      ⟨Orchestrator.parallelMergeSort 5 2 1 4, [(3 : Int), 1, 2], 0⟩).activeThreads = 0 := by
  decide

/-- C19 as amended. The recursive function checks no range: called with
`l ≥ r`, which every range with `l > r + 1` is, and whether or not the indices
are inside the array, it has returned at once, normally, and the array and the
counter are as they were in every state of every run. -/
theorem invalid_range_not_rejected (key : α → Int) (arr : List α)
    (l r depth maxThreads active : Int) (h : l ≥ r) (sched : List Nat) :
    Orchestrator.parallelMergeSort l r depth maxThreads = Prog.done ∧
    (exec key sched ⟨Orchestrator.parallelMergeSort l r depth maxThreads, arr, active⟩).prog =
      Prog.done ∧
    (exec key sched ⟨Orchestrator.parallelMergeSort l r depth maxThreads, arr, active⟩).arr = arr ∧
    (exec key sched ⟨Orchestrator.parallelMergeSort l r depth maxThreads, arr, active⟩).activeThreads =
      active := by
  have hp : Orchestrator.parallelMergeSort l r depth maxThreads = Prog.done := by
    rw [parallelMergeSort_eq, if_pos h]
  rw [hp, exec_done key sched _ rfl]
  exact ⟨rfl, rfl, rfl, rfl⟩

/-- C19 as amended, on `[3, 1, 2]` with `l = 7`, `r = -4`. -/
theorem invalid_range_not_rejected_witness :
    (7 : Int) ≥ -4 ∧
    (exec id [0, 1] ⟨Orchestrator.parallelMergeSort 7 (-4) 2 4, [(3 : Int), 1, 2], 0⟩).prog =
      Prog.done ∧
    (exec id [0, 1] ⟨Orchestrator.parallelMergeSort 7 (-4) 2 4, [(3 : Int), 1, 2], 0⟩).arr =
      [3, 1, 2] :=
  ⟨by decide,
    (invalid_range_not_rejected id [(3 : Int), 1, 2] 7 (-4) 2 4 0 (by decide) [0, 1]).2.1,
    (invalid_range_not_rejected id [(3 : Int), 1, 2] 7 (-4) 2 4 0 (by decide) [0, 1]).2.2.1⟩

/-! ## The indices inside `merge` -/

/-- The loops of `merge` on an array cut at the three indices: every loop
returns, with the indices it ends on. -/
theorem merge_loops_append (key : α → Int) (pre left right post : List α) (l m r : Int)
    (hl : l = pre.length) (hm : m = l + left.length - 1) (hr : r = m + right.length) :
    copyRun (pre ++ left ++ right ++ post) l left.length 0 = some left ∧
    copyRun (pre ++ left ++ right ++ post) (m + 1) right.length 0 = some right ∧
    ∃ (arr1 arr2 arr3 : List α) (i j : Nat),
      i ≤ left.length ∧ j ≤ right.length ∧ (i = left.length ∨ j = right.length) ∧
      mergeLoop key left right left.length right.length (left.length + right.length)
        (pre ++ left ++ right ++ post) 0 0 l = some (arr1, (i : Int), (j : Int), l + i + j) ∧
      copyBack left left.length left.length arr1 i (l + i + j) =
        some (arr2, (left.length : Int), l + left.length + j) ∧
      copyBack right right.length right.length arr2 j (l + left.length + j) =
        some (arr3, (right.length : Int), r + 1) ∧
      merge key (pre ++ left ++ right ++ post) l m r = some arr3 := by
  have hcl : copyRun (pre ++ left ++ right ++ post) l left.length 0 = some left := by
    have := copyRun_eq (pre ++ left ++ right ++ post) pre.length left.length 0 (by simp)
    rw [hl]
    simpa [List.append_assoc] using this
  have hcr : copyRun (pre ++ left ++ right ++ post) (m + 1) right.length 0 = some right := by
    have := copyRun_eq (pre ++ left ++ right ++ post) (pre.length + left.length) right.length 0
      (by simp; omega)
    have e : m + 1 = ((pre.length + left.length : Nat) : Int) := by push_cast; omega
    rw [Nat.cast_zero] at this
    rw [e, this, Nat.add_zero, List.append_assoc (pre ++ left), ← List.length_append]
    simp
  obtain ⟨i1, j1, out, todo1, h1, h2, h3, h4, h5, h6⟩ :=
    mergeLoop_spec key left right (left.length + right.length) 0 0 pre (left ++ right) post l
      (by omega) (by omega) (by simp) (by simp) hl
  simp only [List.drop_zero, Nat.cast_zero] at h1 h6
  have hout : out.length = i1 + j1 := by
    have := congrArg List.length h6
    simp only [List.length_append, specMerge_length, List.length_drop] at this
    omega
  obtain ⟨tl, tr, rfl, htl, htr⟩ : ∃ tl tr, todo1 = tl ++ tr ∧ tl.length = left.length - i1 ∧
      tr.length = right.length - j1 :=
    ⟨todo1.take (left.length - i1), todo1.drop (left.length - i1), by simp, by simp; omega,
      by simp; omega⟩
  have hb1 := copyBack_eq left left.length i1 (pre ++ out) tl (tr ++ post) (l + out.length) h2 htl
    (by omega) (by simp [hl])
  have hb2 := copyBack_eq right right.length j1 (pre ++ out ++ left.drop i1) tr post
    (l + out.length + ((left.length - i1 : Nat) : Int)) h3 htr (by omega)
    (by simp [hl]; omega)
  have hsm : specMerge key (left.drop i1) (right.drop j1) = left.drop i1 ++ right.drop j1 := by
    rcases h4 with h | h
    · subst h; simp [specMerge_nil_left]
    · subst h; simp [specMerge_nil_right]
  have hk1 : l + (out.length : Int) = l + i1 + j1 := by omega
  have hk2 : l + (out.length : Int) + ((left.length - i1 : Nat) : Int) = l + left.length + j1 := by
    omega
  have hk3 : l + left.length + (j1 : Int) + ((right.length - j1 : Nat) : Int) = r + 1 := by omega
  rw [hk2] at hb1 hb2
  rw [hk1] at h1 hb1
  rw [hk3] at hb2
  have hmerge : merge key (pre ++ left ++ right ++ post) l m r =
      some (pre ++ out ++ left.drop i1 ++ right.drop j1 ++ post) := by
    rw [merge_append key pre left right post l m r hl hm hr, ← h6, hsm]
    simp only [List.append_assoc]
  simp only [List.append_assoc] at h1 hb1 hb2 hcl hcr hmerge ⊢
  exact ⟨hcl, hcr, pre ++ (out ++ (tl ++ (tr ++ post))),
    pre ++ (out ++ (left.drop i1 ++ (tr ++ post))),
    pre ++ (out ++ (left.drop i1 ++ (right.drop j1 ++ post))), i1, j1, h2, h3, h4, h1, hb1, hb2,
    hmerge⟩

/-- The loops of `merge` on an array that contains `l..r`: the two copies fill
the buffers with `arr[l..m]` and `arr[m+1..r]`, the first loop ends with one
buffer exhausted and `k = l + i + j`, the second with `i = nl`, the third with
`j = nr` and `k = r + 1`; no read or write leaves the array or a buffer. -/
theorem merge_loops (key : α → Int) (arr : List α) (l m r : Int) (h0 : 0 ≤ l) (h1 : l ≤ m)
    (h2 : m < r) (h3 : r < arr.length) : MergeInBounds key arr l m r := by
  unfold MergeInBounds
  have e := split_at_three arr l.toNat (m + 1).toNat (r + 1).toNat (by omega) (by omega)
  have w1 : window arr l m = (arr.drop l.toNat).take ((m + 1).toNat - l.toNat) := by
    unfold window; congr 1; omega
  have w2 : window arr (m + 1) r = (arr.drop (m + 1).toNat).take ((r + 1).toNat - (m + 1).toNat) := by
    unfold window; congr 1; omega
  have hlen1 : ((window arr l m).length : Int) = m - l + 1 := by
    rw [w1]; simp only [List.length_take, List.length_drop]; omega
  have hlen2 : ((window arr (m + 1) r).length : Int) = r - m := by
    rw [w2]; simp only [List.length_take, List.length_drop]; omega
  have hA : arr = arr.take l.toNat ++ window arr l m ++ window arr (m + 1) r ++
      arr.drop (r + 1).toNat := by
    rw [w1, w2]; exact e
  obtain ⟨hc1, hc2, arr1, arr2, arr3, i, j, hi, hj, hij, hm1, hb1, hb2, hmerge⟩ :=
    merge_loops_append key (arr.take l.toNat) (window arr l m) (window arr (m + 1) r)
      (arr.drop (r + 1).toNat) l m r (by rw [List.length_take]; omega) (by omega) (by omega)
  rw [← hA] at hc1 hc2 hm1 hmerge
  have t1 : (m - l + 1).toNat = (window arr l m).length := by omega
  have t2 : (r - m).toNat = (window arr (m + 1) r).length := by omega
  have t3 : (m - l + 1 + (r - m)).toNat = (window arr l m).length + (window arr (m + 1) r).length := by
    omega
  have hk : l + ((window arr l m).length : Int) + (j : Int) = m + 1 + j := by omega
  rw [hk] at hb1 hb2
  rw [hlen1] at hm1 hb1
  rw [hlen2] at hm1 hb2
  rw [t1, t2, t3]
  exact ⟨hc1, hc2, arr1, arr2, arr3, i, j, by omega, by omega, by omega, hm1, hb1, hb2, hmerge⟩

theorem within_mergeCalls (key : α → Int) : ∀ (p : Prog) (lo hi : Nat), Within key lo hi p →
    ∀ x ∈ mergeCalls p, (lo : Int) ≤ x.1 ∧ x.1 ≤ x.2.1 ∧ x.2.1 < x.2.2 ∧ x.2.2 < (hi : Int) := by
  intro p
  induction p with
  | done => intro lo hi _ x hx; simp [mergeCalls] at hx
  | release => intro lo hi _ x hx; simp [mergeCalls] at hx
  | mergeCall l m r =>
    intro lo hi h x hx
    simp only [mergeCalls, List.mem_singleton] at hx
    subst hx
    exact h
  | admission cap g d ihg ihd =>
    intro lo hi h x hx
    simp only [Within] at h
    rcases List.mem_append.mp hx with hx | hx
    · exact ihg lo hi h.1 x hx
    · exact ihd lo hi h.2.1 x hx
  | seq a b iha ihb =>
    intro lo hi h x hx
    simp only [Within] at h
    rcases List.mem_append.mp hx with hx | hx
    · exact iha lo hi h.1 x hx
    · exact ihb lo hi h.2 x hx
  | async a b iha ihb =>
    intro lo hi h x hx
    simp only [Within] at h
    obtain ⟨mid, hm1, hm2, ha, hb⟩ := h
    rcases List.mem_append.mp hx with hx | hx
    · have := iha lo mid ha x hx
      omega
    · have := ihb mid hi hb x hx
      omega

/-- C20 (index safety). For an array of length `n ≥ 2` and `maxThreads ≥ 1`, in
every state of a run of the wrapper: the array has length `n`; every call of
`merge` that is left to run has `0 ≤ l ≤ m < r ≤ n - 1`; on the array of that
state no read or write of such a call leaves the array or a buffer, and its
loops end with `i = nl`, `j = nr`, `k = r + 1`; and the run is never stuck on an
access outside the array: a step is possible until the wrapper has returned. -/
theorem index_safety (key : α → Int) (arr : List α) (maxThreads : Int) (_hn : 2 ≤ arr.length)
    (_hcap : 1 ≤ maxThreads) (sched : List Nat) :
    (exec key sched (Driver.parallelMergeSort arr arr.length maxThreads)).arr.length = arr.length ∧
    (∀ x ∈ mergeCalls (exec key sched (Driver.parallelMergeSort arr arr.length maxThreads)).prog,
      (0 ≤ x.1 ∧ x.1 ≤ x.2.1 ∧ x.2.1 < x.2.2 ∧ x.2.2 ≤ (arr.length : Int) - 1) ∧
      MergeInBounds key (exec key sched (Driver.parallelMergeSort arr arr.length maxThreads)).arr
        x.1 x.2.1 x.2.2) ∧
    ((exec key sched (Driver.parallelMergeSort arr arr.length maxThreads)).prog ≠ Prog.done →
      next key (exec key sched (Driver.parallelMergeSort arr arr.length maxThreads)).prog
        (exec key sched (Driver.parallelMergeSort arr arr.length maxThreads)).arr
        (exec key sched (Driver.parallelMergeSort arr arr.length maxThreads)).activeThreads ≠ []) := by
  obtain ⟨hw, harr, _⟩ := driver_den key arr maxThreads
  have hlen : arr.length ≤ (Driver.parallelMergeSort arr arr.length maxThreads).arr.length := by
    rw [harr]
  obtain ⟨h1, h2, _, _⟩ := exec_array key 0 arr.length (Nat.zero_le _) sched _ hw hlen
  rw [harr] at h2
  refine ⟨h2, fun x hx => ?_, fun hne => ?_⟩
  · have hb := within_mergeCalls key _ 0 arr.length h1 x hx
    exact ⟨⟨by omega, hb.2.1, hb.2.2.1, by omega⟩,
      merge_loops key _ x.1 x.2.1 x.2.2 (by omega) hb.2.1 hb.2.2.1 (by omega)⟩
  · exact next_progress key _ _ _ 0 arr.length h1 (Nat.zero_le _) (by omega) hne

/-- C20 on `[3, 1, 2]` with `maxThreads = 4`, after two steps: the calls of
`merge` left to run are on `0, 0, 1` and on `0, 1, 2`. -/
theorem index_safety_witness :
    2 ≤ ([(3 : Int), 1, 2]).length ∧ (1 : Int) ≤ 4 ∧
    mergeCalls (exec id [0, 0] (Driver.parallelMergeSort [(3 : Int), 1, 2]
      (([(3 : Int), 1, 2]).length : Int) 4)).prog = [(0, 0, 1), (0, 1, 2)] ∧
    ∀ x ∈ mergeCalls (exec id [0, 0] (Driver.parallelMergeSort [(3 : Int), 1, 2]
        (([(3 : Int), 1, 2]).length : Int) 4)).prog,
      (0 ≤ x.1 ∧ x.1 ≤ x.2.1 ∧ x.2.1 < x.2.2 ∧ x.2.2 ≤ ((([(3 : Int), 1, 2]).length : Nat) : Int) - 1) ∧
      MergeInBounds id (exec id [0, 0] (Driver.parallelMergeSort [(3 : Int), 1, 2]
        (([(3 : Int), 1, 2]).length : Int) 4)).arr x.1 x.2.1 x.2.2 :=
  ⟨by decide, by decide, by decide,
    (index_safety id [(3 : Int), 1, 2] 4 (by decide) (by decide) [0, 0]).2.1⟩

/-! ## The recursive function on 32-bit `int`s -/

theorem wrap32_id (x : Int) (h1 : -2147483648 ≤ x) (h2 : x ≤ 2147483647) : wrap32 x = x := by
  unfold wrap32; omega

theorem midpoint32_eq (l r : Int) (h0 : 0 ≤ l) (h1 : l ≤ r) (h2 : r ≤ 2147483647) :
    midpoint32 l r = l + (r - l) / 2 := by
  have hh : half (r - l) = (r - l) / 2 := by
    unfold half; rw [if_pos (by omega)]
  unfold midpoint32
  rw [wrap32_id (r - l) (by omega) (by omega), hh, wrap32_id _ (by omega) (by omega)]

/-- One call of the 32-bit function on a range of indices `0 ≤ l`, `r ≤ 2^31 - 1`:
the midpoint and `m + 1` do not overflow. -/
theorem body32_succ (maxThreads : Int) (fuel : Nat) (l r depth : Int) (h0 : 0 ≤ l)
    (hr : r ≤ 2147483647) :
    Orchestrator32.body maxThreads (fuel + 1) l r depth =
      if l ≥ r then Prog.done
      else
        Prog.seq
          (if depth > 0 then
            Prog.admission maxThreads
              (Prog.async
                (Prog.seq
                  (Orchestrator32.body maxThreads fuel l (l + (r - l) / 2) (wrap32 (depth - 1)))
                  Prog.release)
                (Orchestrator32.body maxThreads fuel (l + (r - l) / 2 + 1) r (wrap32 (depth - 1))))
              (Prog.seq
                (Orchestrator32.body maxThreads fuel l (l + (r - l) / 2) (wrap32 (depth - 1)))
                (Orchestrator32.body maxThreads fuel (l + (r - l) / 2 + 1) r (wrap32 (depth - 1))))
          else
            Prog.seq (Orchestrator32.body maxThreads fuel l (l + (r - l) / 2) (wrap32 (depth - 1)))
              (Orchestrator32.body maxThreads fuel (l + (r - l) / 2 + 1) r (wrap32 (depth - 1))))
          (Prog.mergeCall l (l + (r - l) / 2) r) := by
  rw [Orchestrator32.body]
  split
  · rfl
  · simp only []
    rw [midpoint32_eq l r h0 (by omega) hr, wrap32_id (l + (r - l) / 2 + 1) (by omega) (by omega)]

theorem body32_fuel (maxThreads : Int) : ∀ (fuel1 fuel2 : Nat) (l r depth : Int), 0 ≤ l →
    r ≤ 2147483647 → r - l < fuel1 → r - l < fuel2 →
    Orchestrator32.body maxThreads fuel1 l r depth =
      Orchestrator32.body maxThreads fuel2 l r depth := by
  intro fuel1
  induction fuel1 with
  | zero =>
    intro fuel2 l r depth _ _ h1 _
    cases fuel2 with
    | zero => rfl
    | succ f => rw [Orchestrator32.body, Orchestrator32.body, if_pos (by omega)]
  | succ fuel1 ih =>
    intro fuel2 l r depth h0 hr h1 h2
    cases fuel2 with
    | zero => rw [Orchestrator32.body, Orchestrator32.body, if_pos (by omega)]
    | succ f =>
      rw [body32_succ maxThreads fuel1 l r depth h0 hr, body32_succ maxThreads f l r depth h0 hr]
      split
      · rfl
      · rw [ih f l (l + (r - l) / 2) (wrap32 (depth - 1)) h0 (by omega) (by omega) (by omega),
          ih f (l + (r - l) / 2 + 1) r (wrap32 (depth - 1)) (by omega) hr (by omega) (by omega)]

theorem body32_within (key : α → Int) (maxThreads : Int) : ∀ (fuel : Nat) (l r depth : Int),
    0 ≤ l → r ≤ 2147483647 →
    Within key l.toNat (r + 1).toNat (Orchestrator32.body maxThreads fuel l r depth) := by
  intro fuel
  induction fuel with
  | zero => intro l r depth _ _; trivial
  | succ fuel ih =>
    intro l r depth hl hr
    rw [body32_succ maxThreads fuel l r depth hl hr]
    split
    · trivial
    · rename_i hlr
      have hL := ih l (l + (r - l) / 2) (wrap32 (depth - 1)) hl (by omega)
      have hR := ih (l + (r - l) / 2 + 1) r (wrap32 (depth - 1)) (by omega) hr
      have hL1 := within_mono key _ _ _ l.toNat (r + 1).toNat hL (le_refl _) (by omega)
      have hR1 := within_mono key _ _ _ l.toNat (r + 1).toNat hR (by omega) (le_refl _)
      have hM : Within key l.toNat (r + 1).toNat (Prog.mergeCall l (l + (r - l) / 2) r) := by
        simp only [Within]
        omega
      split
      · refine ⟨⟨⟨(l + (r - l) / 2 + 1).toNat, by omega, by omega, ⟨hL, trivial⟩, hR⟩, ⟨hL1, hR1⟩, ?_⟩, hM⟩
        intro arr
        simp [den]
      · exact ⟨⟨hL1, hR1⟩, hM⟩

/-- Where no decrement of the depth overflows, the 32-bit function is the
function on the integers: for indices `0 ≤ l`, `r ≤ 2^31 - 1` with
`r - l < 2 ^ k` the recursion has at most `k` levels, and `depth - 1` stays an
`int` on all of them when `-2^31 + k ≤ depth`. -/
theorem body32_eq_body (maxThreads : Int) : ∀ (fuel k : Nat) (l r depth : Int), 0 ≤ l →
    r ≤ 2147483647 → r - l < 2 ^ k → -2147483648 + k ≤ depth → depth ≤ 2147483647 →
    Orchestrator32.body maxThreads fuel l r depth = Orchestrator.body maxThreads fuel l r depth := by
  intro fuel
  induction fuel with
  | zero => intro k l r depth _ _ _ _ _; rfl
  | succ fuel ih =>
    intro k l r depth h0 hr hk hd1 hd2
    rw [body32_succ maxThreads fuel l r depth h0 hr, Orchestrator.body]
    split
    · rfl
    · rename_i hlr
      simp only []
      cases k with
      | zero => simp at hk; omega
      | succ k =>
        have hpow : (2 : Int) ^ (k + 1) = 2 * 2 ^ k := by rw [pow_succ]; ring
        rw [hpow] at hk
        push_cast at hd1
        rw [wrap32_id (depth - 1) (by omega) (by omega),
          ih k l (l + (r - l) / 2) (depth - 1) h0 (by omega) (by omega) (by omega) (by omega),
          ih k (l + (r - l) / 2 + 1) r (depth - 1) (by omega) hr (by omega) (by omega) (by omega)]

theorem parallelMergeSort32_eq (l r depth maxThreads : Int) (h0 : 0 ≤ l) (hr : r ≤ 2147483647)
    (hd1 : -2147483617 ≤ depth) (hd2 : depth ≤ 2147483647) :
    Orchestrator32.parallelMergeSort l r depth maxThreads =
      Orchestrator.parallelMergeSort l r depth maxThreads := by
  unfold Orchestrator32.parallelMergeSort Orchestrator.parallelMergeSort
  exact body32_eq_body maxThreads _ 31 l r depth h0 hr (by norm_num; omega) (by norm_num; omega) hd2

/-! ## The contract of `merge`, and the recursive function at the limits of `int` -/

theorem window_length (arr : List α) (l r : Int) (h0 : 0 ≤ l) (h2 : r < arr.length) :
    (window arr l r).length = (r - l + 1).toNat := by
  unfold window
  simp only [List.length_take, List.length_drop]
  omega

theorem window_getElem? (arr : List α) (l r : Int) (h0 : 0 ≤ l) (i : Nat) (h1 : l ≤ (i : Int))
    (h2 : (i : Int) ≤ r) : (window arr l r)[i - l.toNat]? = arr[i]? := by
  unfold window
  rw [List.getElem?_take_of_lt (by omega), List.getElem?_drop]
  congr 1
  omega

theorem body32_unbounded (maxThreads : Int) : ∀ (fuel : Nat) (depth : Int),
    fuel ≤ (mergeCalls
      (Orchestrator32.body maxThreads fuel (-2147483647) 2147483647 depth)).length := by
  intro fuel
  induction fuel with
  | zero => intro depth; exact Nat.zero_le _
  | succ fuel ih =>
    intro depth
    have hm : midpoint32 (-2147483647) 2147483647 = -2147483648 := by decide
    have hw : wrap32 (-2147483648 + 1) = -2147483647 := by decide
    have h := ih (wrap32 (depth - 1))
    rw [Orchestrator32.body, if_neg (by decide)]
    simp only [hm, hw]
    split <;>
    · simp only [mergeCalls, List.length_append, List.length_singleton]
      omega

theorem parallelMergeSort32_unfold (l r depth maxThreads : Int) (h0 : 0 ≤ l) (hlr : l < r)
    (hr : r ≤ 2147483647) :
    Orchestrator32.parallelMergeSort l r depth maxThreads =
      Prog.seq
        (if depth > 0 then
          Prog.admission maxThreads
            (Prog.async
              (Prog.seq
                (Orchestrator32.parallelMergeSort l (midpoint32 l r) (wrap32 (depth - 1)) maxThreads)
                Prog.release)
              (Orchestrator32.parallelMergeSort (midpoint32 l r + 1) r (wrap32 (depth - 1))
                maxThreads))
            (Prog.seq
              (Orchestrator32.parallelMergeSort l (midpoint32 l r) (wrap32 (depth - 1)) maxThreads)
              (Orchestrator32.parallelMergeSort (midpoint32 l r + 1) r (wrap32 (depth - 1))
                maxThreads))
        else
          Prog.seq
            (Orchestrator32.parallelMergeSort l (midpoint32 l r) (wrap32 (depth - 1)) maxThreads)
            (Orchestrator32.parallelMergeSort (midpoint32 l r + 1) r (wrap32 (depth - 1))
              maxThreads))
        (Prog.mergeCall l (midpoint32 l r) r) := by
  unfold Orchestrator32.parallelMergeSort
  rw [body32_succ maxThreads _ l r depth h0 hr, if_neg (by omega),
    midpoint32_eq l r h0 (by omega) hr,
    body32_fuel maxThreads (r - l).toNat ((l + (r - l) / 2 - l).toNat + 1) l (l + (r - l) / 2)
      (wrap32 (depth - 1)) h0 (by omega) (by omega) (by omega),
    body32_fuel maxThreads (r - l).toNat ((r - (l + (r - l) / 2 + 1)).toNat + 1)
      (l + (r - l) / 2 + 1) r (wrap32 (depth - 1)) (by omega) hr (by omega) (by omega)]

/-- C4 (contract of `merge`). For indices `0 ≤ l ≤ m < r < length` such that
`arr[l..m]` and `arr[m+1..r]` are ascending, `merge(arr, l, m, r)` returns, the
array keeps its length, and the window `arr[l..r]`, which has its `r - l + 1`
elements, is ascending: `arr[i] ≤ arr[j]` for all `l ≤ i < j ≤ r`. -/
theorem merge_contract (arr : List Int) (l m r : Int) (h0 : 0 ≤ l) (h1 : l ≤ m) (h2 : m < r)
    (h3 : r < arr.length) (hleft : (window arr l m).Pairwise fun a b => a ≤ b)
    (hright : (window arr (m + 1) r).Pairwise fun a b => a ≤ b) :
    ∃ out, merge id arr l m r = some out ∧ out.length = arr.length ∧
      (window out l r).length = (r - l + 1).toNat ∧
      ((window out l r).Pairwise fun a b => a ≤ b) ∧
      ∀ i j : Nat, l ≤ (i : Int) → i < j → (j : Int) ≤ r →
        ∃ x y, out[i]? = some x ∧ out[j]? = some y ∧ x ≤ y := by
  obtain ⟨out, hout, hlen, _⟩ := merge_frame id arr l m r h0 h1 h2 h3
  have hw : window out l r = specMerge id (window arr l m) (window arr (m + 1) r) := by
    have e := merge_eq id arr l m r h0 h1 h2 h3
    rw [hout] at e
    rw [Option.some.inj e]
    exact window_merge id arr l m r h0 h1 h2 h3
  have hsorted : (window out l r).Pairwise fun a b => a ≤ b := by
    rw [hw]
    exact specMerge_sorted id _ _ hleft hright
  have hwlen := window_length out l r h0 (by omega)
  refine ⟨out, hout, hlen, hwlen, hsorted, ?_⟩
  intro i j hi hij hj
  have hia : i - l.toNat < (window out l r).length := by omega
  have hjb : j - l.toNat < (window out l r).length := by omega
  have hle := List.pairwise_iff_getElem.mp hsorted (i - l.toNat) (j - l.toNat) hia hjb (by omega)
  refine ⟨(window out l r)[i - l.toNat], (window out l r)[j - l.toNat], ?_, ?_, hle⟩
  · rw [← window_getElem? out l r h0 i hi (by omega)]
    exact List.getElem?_eq_getElem hia
  · rw [← window_getElem? out l r h0 j (by omega) hj]
    exact List.getElem?_eq_getElem hjb

/-- C4 on `[9, 1, 3, 5, 2, 4, 0]` with the runs `arr[1..3]` and `arr[4..5]`. -/
theorem merge_contract_witness :
    merge id [9, 1, 3, 5, 2, 4, 0] 1 3 5 = some [9, 1, 2, 3, 4, 5, 0] ∧
    ∃ out, merge id [9, 1, 3, 5, 2, 4, 0] 1 3 5 = some out ∧
      out.length = ([9, 1, 3, 5, 2, 4, 0] : List Int).length ∧
      (window out 1 5).length = ((5 : Int) - 1 + 1).toNat ∧
      ((window out 1 5).Pairwise fun a b => a ≤ b) ∧
      ∀ i j : Nat, (1 : Int) ≤ (i : Int) → i < j → (j : Int) ≤ 5 →
        ∃ x y, out[i]? = some x ∧ out[j]? = some y ∧ x ≤ y :=
  ⟨by decide,
    merge_contract [9, 1, 3, 5, 2, 4, 0] 1 3 5 (by decide) (by decide) (by decide) (by decide)
      (by decide) (by decide)⟩

/-- C13, the claim as stated fails: on `[4, 3, 2, 1]` the call on `[0, 3]` with
depth `-2^31` performs no admission check itself, but `depth - 1` wraps around to
`2^31 - 1`, so its two recursive calls perform the check: 2 checks on the run,
where the bound `2 ^ max(d, 0) - 1` is 0. -/
theorem admission_checks_wrap :
    (-2147483648 : Int) ≤ 0 ∧
    2 ^ (-2147483648 : Int).toNat - 1 = 0 ∧
    wrap32 (-2147483648 - 1) = 2147483647 ∧
    checksPerformed id (List.replicate 30 0)
      ⟨Orchestrator32.parallelMergeSort 0 3 (-2147483648) 2, [(4 : Int), 3, 2, 1], 0⟩ = 2 ∧
    (exec id (List.replicate 30 0)
      ⟨Orchestrator32.parallelMergeSort 0 3 (-2147483648) 2, [(4 : Int), 3, 2, 1], 0⟩).prog =
      Prog.done := by
  decide

/-- C13 as amended (the depth bounds the admission checks where no decrement of
the depth overflows). For indices `0 ≤ l`, `r ≤ 2^31 - 1`, every `maxThreads` and
counter, and every depth `d` with `-2^31 + 31 ≤ d ≤ 2^31 - 1`, on every run of the
recursive function the admission check is performed at most `2 ^ max(d, 0) - 1`
times (all the calls below included).  With such a `d ≤ 0` the program contains
no admission check and no release: no check is performed and the counter keeps
its value in every state. -/
theorem admission_checks_bounded (key : α → Int) (arr : List α)
    (l r depth maxThreads active : Int) (h0 : 0 ≤ l) (hr : r ≤ 2147483647)
    (hd1 : -2147483617 ≤ depth) (hd2 : depth ≤ 2147483647) (sched : List Nat) :
    checksPerformed key sched ⟨Orchestrator32.parallelMergeSort l r depth maxThreads, arr, active⟩ ≤
      2 ^ depth.toNat - 1 ∧
    (depth ≤ 0 →
      budgetOps (Orchestrator32.parallelMergeSort l r depth maxThreads) = 0 ∧
      checksPerformed key sched
        ⟨Orchestrator32.parallelMergeSort l r depth maxThreads, arr, active⟩ = 0 ∧
      (exec key sched
        ⟨Orchestrator32.parallelMergeSort l r depth maxThreads, arr, active⟩).activeThreads =
        active) := by
  rw [parallelMergeSort32_eq l r depth maxThreads h0 hr hd1 hd2]
  have hle := checksPerformed_le key sched
    ⟨Orchestrator.parallelMergeSort l r depth maxThreads, arr, active⟩
  have hb := admissionChecks_body_le maxThreads ((r - l).toNat + 1) l r depth
  simp only [Orchestrator.parallelMergeSort] at hle hb ⊢
  refine ⟨by omega, fun hd => ?_⟩
  have hz := budgetOps_body maxThreads ((r - l).toNat + 1) l r depth hd
  have hc0 := admissionChecks_body maxThreads ((r - l).toNat + 1) l r depth hd
  refine ⟨hz, by omega, ?_⟩
  have hbal := body_balanced maxThreads ((r - l).toNat + 1) l r depth
  obtain ⟨_, h2, _⟩ := exec_budget key maxThreads sched
    ⟨Orchestrator.body maxThreads ((r - l).toNat + 1) l r depth, arr, active⟩ hbal.1
  have ho := owed_le_budgetOps (exec key sched
    ⟨Orchestrator.body maxThreads ((r - l).toNat + 1) l r depth, arr, active⟩).prog
  simp only [hbal.2] at h2
  omega

/-- C13 as amended, on `[4, 3, 2, 1]` with depth 2 and `maxThreads = 2`: the run
performs `2 ^ 2 - 1 = 3` admission checks; with depth 0, and with depth
`-2^31 + 31`, it performs none and the counter stays at 5. -/
theorem admission_checks_bounded_witness :
    checksPerformed id (List.replicate 30 0)
      ⟨Orchestrator32.parallelMergeSort 0 3 2 2, [(4 : Int), 3, 2, 1], 0⟩ = 3 ∧
    checksPerformed id (List.replicate 30 0)
      ⟨Orchestrator32.parallelMergeSort 0 3 2 2, [(4 : Int), 3, 2, 1], 0⟩ ≤ 2 ^ (2 : Int).toNat - 1 ∧
    checksPerformed id (List.replicate 30 0)
      ⟨Orchestrator32.parallelMergeSort 0 3 0 2, [(4 : Int), 3, 2, 1], 5⟩ = 0 ∧
    (exec id (List.replicate 30 0)
      ⟨Orchestrator32.parallelMergeSort 0 3 0 2, [(4 : Int), 3, 2, 1], 5⟩).activeThreads = 5 ∧
    checksPerformed id (List.replicate 30 0)
      ⟨Orchestrator32.parallelMergeSort 0 3 (-2147483617) 2, [(4 : Int), 3, 2, 1], 5⟩ = 0 :=
  ⟨by decide,
    (admission_checks_bounded id [(4 : Int), 3, 2, 1] 0 3 2 2 0 (by decide) (by decide) (by decide)
      (by decide) (List.replicate 30 0)).1,
    ((admission_checks_bounded id [(4 : Int), 3, 2, 1] 0 3 0 2 5 (by decide) (by decide)
      (by decide) (by decide) (List.replicate 30 0)).2 (by decide)).2.1,
    ((admission_checks_bounded id [(4 : Int), 3, 2, 1] 0 3 0 2 5 (by decide) (by decide)
      (by decide) (by decide) (List.replicate 30 0)).2 (by decide)).2.2,
    ((admission_checks_bounded id [(4 : Int), 3, 2, 1] 0 3 (-2147483617) 2 5 (by decide)
      (by decide) (by decide) (by decide) (List.replicate 30 0)).2 (by decide)).2.1⟩

/-- C15, the claim as stated fails: for `l = -1 < r = 2^31 - 1` the difference
`r - l` overflows the 32-bit `int`, and the midpoint of line 85 is
`-1073741825`, which is below `l`. -/
theorem split_overflow :
    (-1 : Int) < 2147483647 ∧
    wrap32 (2147483647 - (-1)) = -2147483648 ∧
    midpoint32 (-1) 2147483647 = -1073741825 ∧
    ¬ ((-1 : Int) ≤ midpoint32 (-1) 2147483647) := by
  decide

/-- C15 as amended (validity of the split on ranges of indices). For
`0 ≤ l < r ≤ 2^31 - 1` the midpoint `m` of line 85, computed on 32-bit `int`s, is
`l + (r - l) / 2` and has `l ≤ m < r`; `m + 1` does not overflow; the ranges
`[l, m]` and `[m+1, r]` are not empty, strictly smaller than `[l, r]`, lie in
`[l, r]`, and every index of `[l, r]` is in exactly one of them; they are the
ranges of the two recursive calls, and `merge` is called on `l, m, r`. -/
theorem split_valid (l r depth maxThreads : Int) (h0 : 0 ≤ l) (h : l < r)
    (hr : r ≤ 2147483647) :
    midpoint32 l r = midpoint l r ∧
    wrap32 (midpoint32 l r + 1) = midpoint32 l r + 1 ∧
    (l ≤ midpoint32 l r ∧ midpoint32 l r < r) ∧
    (midpoint32 l r - l < r - l ∧ r - (midpoint32 l r + 1) < r - l) ∧
    (∀ i : Int, (l ≤ i ∧ i ≤ midpoint32 l r) ∨ (midpoint32 l r + 1 ≤ i ∧ i ≤ r) ↔
      (l ≤ i ∧ i ≤ r)) ∧
    (∀ i : Int, ¬ ((l ≤ i ∧ i ≤ midpoint32 l r) ∧ (midpoint32 l r + 1 ≤ i ∧ i ≤ r))) ∧
    Orchestrator32.parallelMergeSort l r depth maxThreads =
      Prog.seq
        (if depth > 0 then
          Prog.admission maxThreads
            (Prog.async
              (Prog.seq
                (Orchestrator32.parallelMergeSort l (midpoint32 l r) (wrap32 (depth - 1)) maxThreads)
                Prog.release)
              (Orchestrator32.parallelMergeSort (midpoint32 l r + 1) r (wrap32 (depth - 1))
                maxThreads))
            (Prog.seq
              (Orchestrator32.parallelMergeSort l (midpoint32 l r) (wrap32 (depth - 1)) maxThreads)
              (Orchestrator32.parallelMergeSort (midpoint32 l r + 1) r (wrap32 (depth - 1))
                maxThreads))
        else
          Prog.seq
            (Orchestrator32.parallelMergeSort l (midpoint32 l r) (wrap32 (depth - 1)) maxThreads)
            (Orchestrator32.parallelMergeSort (midpoint32 l r + 1) r (wrap32 (depth - 1))
              maxThreads))
        (Prog.mergeCall l (midpoint32 l r) r) := by
  have hm := midpoint32_eq l r h0 (by omega) hr
  refine ⟨hm, ?_, ?_, ?_, ?_, ?_, parallelMergeSort32_unfold l r depth maxThreads h0 h hr⟩
  · rw [hm]; exact wrap32_id _ (by omega) (by omega)
  · rw [hm]; omega
  · rw [hm]; omega
  · intro i; rw [hm]; omega
  · intro i; rw [hm]; omega

/-- C15 as amended, on the range `[0, 12]` of `main` (the midpoint is 6) and on
`[2^30, 2^31 - 1]`. -/
theorem split_valid_witness :
    midpoint32 0 12 = 6 ∧ ((0 : Int) ≤ midpoint32 0 12 ∧ midpoint32 0 12 < 12) ∧
    ((1073741824 : Int) ≤ midpoint32 1073741824 2147483647 ∧
      midpoint32 1073741824 2147483647 < 2147483647) :=
  ⟨by decide, (split_valid 0 12 3 4 (by decide) (by decide) (by decide)).2.2.1,
    (split_valid 1073741824 2147483647 3 4 (by decide) (by decide) (by decide)).2.2.1⟩

/-- C17, the claim as stated fails: for `l = -(2^31 - 1)`, `r = 2^31 - 1` the
difference `r - l` overflows the 32-bit `int`, the midpoint of line 85 is
`m = l - 1 = -2^31`, the call on `[l, m]` returns at once and the call on
`[m+1, r]` is the call on `[l, r]` again, with the same `r - l`: the recursion
does not descend.  Whatever the bound on the depth of the recursion, the call
reaches it, with one call of `merge` pending for each level. -/
theorem recursion_repeats_range :
    (-2147483647 : Int) < 2147483647 ∧
    midpoint32 (-2147483647) 2147483647 = -2147483648 ∧
    wrap32 (midpoint32 (-2147483647) 2147483647 + 1) = -2147483647 ∧
    Orchestrator32.body 4 2 (-2147483647) 2147483647 0 =
      Prog.seq (Prog.seq Prog.done (Orchestrator32.body 4 1 (-2147483647) 2147483647 (-1)))
        (Prog.mergeCall (-2147483647) (-2147483648) 2147483647) ∧
    ∀ (maxThreads : Int) (fuel : Nat) (depth : Int),
      fuel ≤ (mergeCalls
        (Orchestrator32.body maxThreads fuel (-2147483647) 2147483647 depth)).length :=
  ⟨by decide, by decide, by decide, by decide, body32_unbounded⟩

/-- C17 as amended (termination by the size of the range, for ranges of
indices). For indices `0 ≤ l`, `r ≤ 2^31 - 1`, every depth (positive, zero or
negative, the decrement wrapping around or not) and `maxThreads`: the call has
returned at once exactly when `l ≥ r`; otherwise it makes its two recursive
calls, on ranges with a smaller `r - l ≥ 0`, whatever the depth; the bound
`r - l + 1` on the depth of the recursion is never reached (a larger bound gives
the same program); every run stops within `cost` steps, and has then returned
when the range is inside the array. -/
theorem terminates_by_range (key : α → Int) (arr : List α) (l r depth maxThreads active : Int)
    (h0 : 0 ≤ l) (hr : r ≤ 2147483647) (sched : List Nat) :
    (Orchestrator32.parallelMergeSort l r depth maxThreads = Prog.done ↔ l ≥ r) ∧
    (l < r →
      (0 ≤ midpoint32 l r - l ∧ midpoint32 l r - l < r - l) ∧
      (0 ≤ r - wrap32 (midpoint32 l r + 1) ∧ r - wrap32 (midpoint32 l r + 1) < r - l) ∧
      Orchestrator32.parallelMergeSort l r depth maxThreads =
        Prog.seq
          (if depth > 0 then
            Prog.admission maxThreads
              (Prog.async
                (Prog.seq
                  (Orchestrator32.parallelMergeSort l (midpoint32 l r) (wrap32 (depth - 1))
                    maxThreads)
                  Prog.release)
                (Orchestrator32.parallelMergeSort (midpoint32 l r + 1) r (wrap32 (depth - 1))
                  maxThreads))
              (Prog.seq
                (Orchestrator32.parallelMergeSort l (midpoint32 l r) (wrap32 (depth - 1))
                  maxThreads)
                (Orchestrator32.parallelMergeSort (midpoint32 l r + 1) r (wrap32 (depth - 1))
                  maxThreads))
          else
            Prog.seq
              (Orchestrator32.parallelMergeSort l (midpoint32 l r) (wrap32 (depth - 1)) maxThreads)
              (Orchestrator32.parallelMergeSort (midpoint32 l r + 1) r (wrap32 (depth - 1))
                maxThreads))
          (Prog.mergeCall l (midpoint32 l r) r)) ∧
    (∀ fuel : Nat, r - l < fuel →
      Orchestrator32.body maxThreads fuel l r depth =
        Orchestrator32.parallelMergeSort l r depth maxThreads) ∧
    (cost (Orchestrator32.parallelMergeSort l r depth maxThreads) ≤ sched.length →
      next key
        (exec key sched ⟨Orchestrator32.parallelMergeSort l r depth maxThreads, arr, active⟩).prog
        (exec key sched ⟨Orchestrator32.parallelMergeSort l r depth maxThreads, arr, active⟩).arr
        (exec key sched
          ⟨Orchestrator32.parallelMergeSort l r depth maxThreads, arr, active⟩).activeThreads = []) ∧
    (r < arr.length →
      cost (Orchestrator32.parallelMergeSort l r depth maxThreads) ≤ sched.length →
      (exec key sched ⟨Orchestrator32.parallelMergeSort l r depth maxThreads, arr, active⟩).prog =
        Prog.done) := by
  have hdone : l ≥ r → Orchestrator32.parallelMergeSort l r depth maxThreads = Prog.done := by
    intro h
    unfold Orchestrator32.parallelMergeSort
    rw [Orchestrator32.body, if_pos h]
  refine ⟨⟨?_, hdone⟩, ?_, ?_, ?_, ?_⟩
  · intro h
    by_contra hlr
    rw [parallelMergeSort32_unfold l r depth maxThreads h0 (by omega) hr] at h
    exact Prog.noConfusion h
  · intro hlr
    have hm := midpoint32_eq l r h0 (by omega) hr
    refine ⟨by rw [hm]; omega, ?_, parallelMergeSort32_unfold l r depth maxThreads h0 hlr hr⟩
    rw [hm, wrap32_id (l + (r - l) / 2 + 1) (by omega) (by omega)]
    omega
  · intro fuel hf
    exact body32_fuel maxThreads fuel ((r - l).toNat + 1) l r depth h0 hr hf (by omega)
  · intro hs
    rcases exec_stops key sched
      ⟨Orchestrator32.parallelMergeSort l r depth maxThreads, arr, active⟩ with h | h
    · exact h
    · have hz := cost_eq_zero _ (show cost (exec key sched
        ⟨Orchestrator32.parallelMergeSort l r depth maxThreads, arr, active⟩).prog = 0 by
          simp only [] at h; omega)
      rw [hz]
      rfl
  · intro harr hs
    by_cases hlr : l ≥ r
    · refine (congrArg Config.prog (exec_done key sched _ ?_)).trans ?_
      · exact hdone hlr
      · exact hdone hlr
    · exact (exec_returns key l.toNat (r + 1).toNat (by omega) sched
        ⟨Orchestrator32.parallelMergeSort l r depth maxThreads, arr, active⟩
        (body32_within key maxThreads _ l r depth h0 hr) (by simp only []; omega) hs).1

/-- C17 as amended, on `[4, 3, 2, 1]`: with depth `-3` the call makes its three
calls of `merge` and returns; with depth `-2^31`, where the decrement wraps
around, it returns too. -/
theorem terminates_by_range_witness :
    mergeCalls (Orchestrator32.parallelMergeSort 0 3 (-3) 2) = [(0, 0, 1), (2, 2, 3), (0, 1, 3)] ∧
    (exec id (List.replicate 9 0)
      ⟨Orchestrator32.parallelMergeSort 0 3 (-3) 2, [(4 : Int), 3, 2, 1], 0⟩).prog = Prog.done ∧
    (exec id (List.replicate 9 0)
      ⟨Orchestrator32.parallelMergeSort 0 3 (-3) 2, [(4 : Int), 3, 2, 1], 0⟩).arr = [1, 2, 3, 4] ∧
    (exec id (List.replicate 15 0)
      ⟨Orchestrator32.parallelMergeSort 0 3 (-2147483648) 2, [(4 : Int), 3, 2, 1], 0⟩).prog =
      Prog.done :=
  ⟨by decide,
    (terminates_by_range id [(4 : Int), 3, 2, 1] 0 3 (-3) 2 0 (by decide) (by decide)
      (List.replicate 9 0)).2.2.2.2 (by decide) (by decide),
    by decide,
    (terminates_by_range id [(4 : Int), 3, 2, 1] 0 3 (-2147483648) 2 0 (by decide) (by decide)
      (List.replicate 15 0)).2.2.2.2 (by decide) (by decide)⟩

end ParallelMergeSort
